import Mathlib

/-!
# Verification of the AgentBlend workflow scheduling engine

Shallow embedding of the core of the AgentBlend framework
(`src/core/orchestration/workflow.ts`, `src/core/orchestration/engine.ts`,
`src/core/decision/types.ts`) together with proofs of the spec's testable
properties.

Modelling conventions:
* `Record<string, any>` payloads that the scheduler treats as opaque are
  modelled by association lists `List (String × Int)`;
* JavaScript `Date` values are modelled by `Nat` timestamps, passed
  explicitly as a `now` argument to any function that calls `new Date()`;
* JavaScript numbers appearing in the scoring arithmetic are modelled by `ℚ`;
* `Map` objects are modelled by association lists with `List.lookup`;
* fallible code is modelled with `Except`.
-/

namespace AgentBlend

/-- Opaque JSON-like payload (`Record<string, any>` in the source). -/
abbrev Payload := List (String × Int)

/-- The `StepStatus` enum from `src/core/types.ts`. -/
inductive StepStatus where
  | PENDING
  | ASSIGNED
  | RUNNING
  | COMPLETED
  | FAILED
  | SKIPPED
deriving DecidableEq, Repr

/-- The `TaskStatus` enum from `src/core/types.ts`. -/
inductive TaskStatus where
  | CREATED
  | PENDING
  | RUNNING
  | COMPLETED
  | FAILED
  | CANCELED
deriving DecidableEq, Repr

/-- The nested `agentRequirements` object of `WorkflowStep`. -/
structure AgentRequirements where
  capabilities : List String
  networks : Option (List String)
deriving DecidableEq, Repr

/-- The `WorkflowStep` interface from `src/core/types.ts`.
`input` is `Record | null`, the optional fields are `Option`s. -/
structure WorkflowStep where
  id : String
  name : String
  agentRequirements : AgentRequirements
  input : Option Payload
  dependsOn : List String
  output : Option Payload
  status : StepStatus
  assignedAgent : Option String
  startTime : Option Nat
  endTime : Option Nat
  error : Option String
deriving DecidableEq, Repr

/-- The `Workflow` interface from `src/core/types.ts`. -/
structure Workflow where
  steps : List WorkflowStep
deriving DecidableEq, Repr

/-! ## DefaultWorkflowEngine (`src/core/orchestration/workflow.ts`) -/

/-- The `DefaultWorkflowEngine.initialize` (the source name is a Lean keyword):
returns a copy of the workflow where every step is spread (`...step`) with
`status` set to `PENDING`. -/
def initWorkflow (workflow : Workflow) : Workflow :=
  { steps := workflow.steps.map fun step => { step with status := StepStatus.PENDING } }

/-- The `DefaultWorkflowEngine.getNextSteps`: filter keeping steps that are not
COMPLETED/RUNNING/FAILED/ASSIGNED and whose dependencies are all contained in
`completedStepIds`. -/
def getNextSteps (workflow : Workflow) (completedStepIds : List String) : List WorkflowStep :=
  workflow.steps.filter fun step =>
    if step.status = StepStatus.COMPLETED ∨ step.status = StepStatus.RUNNING ∨
        step.status = StepStatus.FAILED ∨ step.status = StepStatus.ASSIGNED then
      false
    else
      step.dependsOn.all fun dependencyId => completedStepIds.contains dependencyId

/-- The `DefaultWorkflowEngine.isComplete`: every step is COMPLETED, FAILED or
SKIPPED. -/
def isComplete (workflow : Workflow) : Bool :=
  workflow.steps.all fun step =>
    step.status = StepStatus.COMPLETED ∨ step.status = StepStatus.FAILED ∨
      step.status = StepStatus.SKIPPED

/-- JavaScript `error || step.error` where `error : string | undefined`:
the empty string is falsy, so it does not overwrite the old value. -/
def jsOrError (e : Option String) (old : Option String) : Option String :=
  match e with
  | some s => if s = "" then old else some s
  | none => old

/-- JavaScript `output || step.output` where `output : Record | undefined`:
any object (even `{}`) is truthy. -/
def jsOrOutput (o : Option Payload) (old : Option Payload) : Option Payload :=
  match o with
  | some v => some v
  | none => old

/-- The `DefaultWorkflowEngine.updateStepStatus`: map over the steps, replacing
the step whose `id` matches with an updated copy.  `now` stands for the
`new Date()` calls. -/
def updateStepStatus (workflow : Workflow) (stepId : String) (status : StepStatus)
    (output : Option Payload) (error : Option String) (now : Nat) : Workflow :=
  { steps := workflow.steps.map fun step =>
      if step.id = stepId then
        { step with
          status := status
          output := jsOrOutput output step.output
          error := jsOrError error step.error
          endTime :=
            if status = StepStatus.COMPLETED ∨ status = StepStatus.FAILED ∨
                status = StepStatus.SKIPPED then
              some now
            else step.endTime
          startTime :=
            if status = StepStatus.RUNNING ∧ step.startTime = none then
              some now
            else step.startTime }
      else step }

/-! ### validateWorkflow

The imperative depth-first search of `validateWorkflow` threads two mutable
sets `visited` and `recStack`; we embed them as a state record and the
recursion with an explicit fuel (the JavaScript recursion terminates because
`visited` only grows; `steps.length + 1` fuel is shown sufficient below). -/

/-- The mutable state of the `validateWorkflow` depth-first search. -/
structure DfsState where
  visited : List String
  recStack : List String
deriving DecidableEq, Repr

/-- The `for (const depId of step.dependsOn)` loop inside `isCyclic`:
`rec` is the recursive call to `isCyclic` (with one unit of fuel consumed). -/
def depLoop (rec : String → DfsState → Bool × DfsState) :
    List String → DfsState → Bool × DfsState
  | [], st => (false, st)
  | depId :: rest, st =>
    if st.visited.contains depId then
      -- `!visited.has(depId)` fails, fall through to the `recStack` check
      if st.recStack.contains depId then (true, st) else depLoop rec rest st
    else
      let res := rec depId st
      if res.1 then (true, res.2)
      else if res.2.recStack.contains depId then (true, res.2)
      else depLoop rec rest res.2

/-- The recursive closure `isCyclic` of `validateWorkflow`.  On `true` the
JavaScript function returns without executing `recStack.delete(stepId)`;
on `false` (and on the already-visited path) it deletes `stepId` from
`recStack` before returning. -/
def isCyclicAux (steps : List WorkflowStep) : Nat → String → DfsState → Bool × DfsState
  | 0, _, st => (false, st)
  | fuel + 1, stepId, st =>
    if st.visited.contains stepId then
      (false, { st with recStack := st.recStack.erase stepId })
    else
      let st1 : DfsState :=
        { visited := stepId :: st.visited, recStack := stepId :: st.recStack }
      let body :=
        match steps.find? (fun s => s.id = stepId) with
        | some step => depLoop (isCyclicAux steps fuel) step.dependsOn st1
        | none => (false, st1)
      if body.1 then (true, body.2)
      else (false, { body.2 with recStack := body.2.recStack.erase stepId })

/-- The `for (const step of steps)` loop at the end of `validateWorkflow`,
threading the shared `visited`/`recStack` state between calls. -/
def cycleLoop (steps : List WorkflowStep) (fuel : Nat) :
    List WorkflowStep → DfsState → Bool
  | [], _ => true
  | step :: rest, st =>
    if st.visited.contains step.id then cycleLoop steps fuel rest st
    else
      let res := isCyclicAux steps fuel step.id st
      if res.1 then false else cycleLoop steps fuel rest res.2

/-- The `DefaultWorkflowEngine.validateWorkflow`: duplicate-id check
(`new Set(stepIds).size !== stepIds.length`), dangling-dependency check, then
the depth-first cycle search. -/
def validateWorkflow (workflow : Workflow) : Bool :=
  let stepIds := workflow.steps.map (fun s => s.id)
  if stepIds.dedup.length ≠ stepIds.length then false
  else if workflow.steps.any (fun step =>
      step.dependsOn.any fun depId => ¬ stepIds.contains depId) then false
  else
    cycleLoop workflow.steps (workflow.steps.length + 1) workflow.steps
      { visited := [], recStack := [] }

/-! ### Spec-side predicates for C1 -/

/-- Spec side: the workflow has two steps sharing an id. -/
def hasDuplicateIds (workflow : Workflow) : Prop :=
  ¬ (workflow.steps.map (fun s => s.id)).Nodup

/-- Spec side: some `dependsOn` entry references a non-existent step id. -/
def hasDanglingDep (workflow : Workflow) : Prop :=
  ∃ step ∈ workflow.steps, ∃ depId ∈ step.dependsOn,
    depId ∉ workflow.steps.map (fun s => s.id)

/-- The dependency edge relation: `depEdge w a b` holds when the step with
id `a` lists `b` in its `dependsOn`. -/
def depEdge (workflow : Workflow) (a b : String) : Prop :=
  ∃ step ∈ workflow.steps, step.id = a ∧ b ∈ step.dependsOn

/-- Spec side: the dependency graph contains a cycle (a nonempty dependency
path from some id back to itself; self-loops are the one-step case). -/
def hasCycle (workflow : Workflow) : Prop :=
  ∃ a, Relation.TransGen (depEdge workflow) a a

end AgentBlend

namespace AgentBlend

/-! ## Concrete example material shared by several claims -/

/-- A template step used by the concrete examples below: a PENDING step with
the given id and dependencies and empty requirements. -/
def baseStep (i : String) (deps : List String) : WorkflowStep :=
  { id := i, name := i,
    agentRequirements := { capabilities := [], networks := none },
    input := none, dependsOn := deps, output := none,
    status := StepStatus.PENDING, assignedAgent := none,
    startTime := none, endTime := none, error := none }

/-! ## C2: readiness of steps (`getNextSteps`) -/

/-- A one-step workflow whose only step is SKIPPED. -/
def skippedWorkflow : Workflow :=
  { steps := [{ baseStep "S" [] with status := StepStatus.SKIPPED }] }

/-- C2 counterexample: `getNextSteps` only filters out
COMPLETED/RUNNING/FAILED/ASSIGNED steps, so a SKIPPED step with no
dependencies is returned even though its status is not PENDING, refuting the
claimed "iff status is PENDING". -/
theorem c2_counterexample :
    ¬ (∀ s ∈ getNextSteps skippedWorkflow [], s.status = StepStatus.PENDING) := by
  decide

/-- Membership characterization of `getNextSteps` (shared helper). -/
theorem getNextSteps_mem_iff (w : Workflow) (completedStepIds : List String)
    (s : WorkflowStep) :
    s ∈ getNextSteps w completedStepIds ↔
      s ∈ w.steps ∧
        (s.status ≠ StepStatus.COMPLETED ∧ s.status ≠ StepStatus.RUNNING ∧
          s.status ≠ StepStatus.FAILED ∧ s.status ≠ StepStatus.ASSIGNED) ∧
        ∀ d ∈ s.dependsOn, d ∈ completedStepIds := by
  unfold getNextSteps
  rw [List.mem_filter]
  constructor
  · rintro ⟨hmem, hp⟩
    refine ⟨hmem, ?_⟩
    by_cases hc : s.status = StepStatus.COMPLETED ∨ s.status = StepStatus.RUNNING ∨
        s.status = StepStatus.FAILED ∨ s.status = StepStatus.ASSIGNED
    · simp [hc] at hp
    · rw [if_neg hc] at hp
      push_neg at hc
      simp only [List.all_eq_true, List.elem_iff] at hp
      exact ⟨⟨hc.1, hc.2.1, hc.2.2.1, hc.2.2.2⟩, hp⟩
  · rintro ⟨hmem, ⟨h1, h2, h3, h4⟩, hdep⟩
    refine ⟨hmem, ?_⟩
    have hc : ¬ (s.status = StepStatus.COMPLETED ∨ s.status = StepStatus.RUNNING ∨
        s.status = StepStatus.FAILED ∨ s.status = StepStatus.ASSIGNED) := by
      push_neg
      exact ⟨h1, h2, h3, h4⟩
    rw [if_neg hc]
    simp only [List.all_eq_true, List.elem_iff]
    exact hdep

/-- C2 (amended): a step appears in the list returned by `getNextSteps` iff
it is a step of the workflow, its status is none of
COMPLETED/RUNNING/FAILED/ASSIGNED (i.e. it is PENDING or SKIPPED), and every
id in its `dependsOn` is present in `completedStepIds`. -/
theorem c2_amended (w : Workflow) (completedStepIds : List String) (s : WorkflowStep) :
    s ∈ getNextSteps w completedStepIds ↔
      s ∈ w.steps ∧
        (s.status ≠ StepStatus.COMPLETED ∧ s.status ≠ StepStatus.RUNNING ∧
          s.status ≠ StepStatus.FAILED ∧ s.status ≠ StepStatus.ASSIGNED) ∧
        ∀ d ∈ s.dependsOn, d ∈ completedStepIds :=
  getNextSteps_mem_iff w completedStepIds s

/-! ## C9: `initialize` resets statuses -/

/-- A one-step workflow whose step carries transient data (output, error,
timestamps) from a previous run. -/
def transientWorkflow : Workflow :=
  { steps := [{ baseStep "T" [] with
      status := StepStatus.COMPLETED, output := some [("x", 1)],
      error := some "boom", startTime := some 1, endTime := some 2,
      assignedAgent := some "agent-1" }] }

/-- C9 counterexample: `initialize` only resets `status`; the transient
`output`/`error`/timestamps of a step survive, refuting the claim that
transient state is cleared. -/
theorem c9_counterexample :
    ¬ (∀ s ∈ (initWorkflow transientWorkflow).steps,
        s.output = none ∧ s.error = none ∧ s.startTime = none ∧ s.endTime = none) := by
  decide

/-- C9 (amended): `initialize` returns a copy with the same steps in the same
order in which every step's status is PENDING; every other field of each step
(id, name, requirements, dependsOn, input, but also the transient output,
error, assignedAgent and timestamps) is preserved unchanged. -/
theorem c9_amended (w : Workflow) :
    List.Forall₂ (fun s₀ s₁ =>
        s₁.status = StepStatus.PENDING ∧ s₁.id = s₀.id ∧ s₁.name = s₀.name ∧
        s₁.agentRequirements = s₀.agentRequirements ∧ s₁.dependsOn = s₀.dependsOn ∧
        s₁.input = s₀.input ∧ s₁.output = s₀.output ∧ s₁.error = s₀.error ∧
        s₁.startTime = s₀.startTime ∧ s₁.endTime = s₀.endTime ∧
        s₁.assignedAgent = s₀.assignedAgent)
      w.steps (initWorkflow w).steps := by
  unfold initWorkflow
  rw [List.forall₂_map_right_iff]
  rw [List.forall₂_same]
  intro s _
  simp

/-! ## C10: frame conditions of `updateStepStatus` -/

/-- C10: `updateStepStatus` leaves every step whose id differs from `stepId`
unchanged; on a matched step it preserves id, name, agentRequirements,
dependsOn and input, and when the `output` (resp. `error`) argument is absent
the previous output (resp. error) is retained. -/
theorem c10_update_frame (w : Workflow) (stepId : String) (status : StepStatus)
    (output : Option Payload) (error : Option String) (now : Nat) :
    List.Forall₂ (fun s₀ s₁ =>
        (s₀.id ≠ stepId → s₁ = s₀) ∧
        (s₀.id = stepId →
          s₁.id = s₀.id ∧ s₁.name = s₀.name ∧
          s₁.agentRequirements = s₀.agentRequirements ∧
          s₁.dependsOn = s₀.dependsOn ∧ s₁.input = s₀.input ∧
          (output = none → s₁.output = s₀.output) ∧
          (error = none → s₁.error = s₀.error)))
      w.steps (updateStepStatus w stepId status output error now).steps := by
  unfold updateStepStatus
  rw [List.forall₂_map_right_iff]
  rw [List.forall₂_same]
  intro s _
  by_cases h : s.id = stepId
  · rw [if_pos h]
    refine ⟨fun hne => absurd h hne, fun _ => ?_⟩
    refine ⟨rfl, rfl, rfl, rfl, rfl, ?_, ?_⟩
    · rintro rfl
      rfl
    · rintro rfl
      rfl
  · rw [if_neg h]
    exact ⟨fun _ => rfl, fun heq => absurd heq h⟩

end AgentBlend

namespace AgentBlend

/-! ## Task model and InMemoryTaskOrchestrationEngine
(`src/core/types.ts`, `src/core/orchestration/engine.ts`) -/

/-- The optional `budget` object of a task. -/
structure TaskBudget where
  amount : String
  token : String
deriving DecidableEq, Repr

/-- The `Task` interface from `src/core/types.ts`.  `result` is a JavaScript
object keyed by step id. -/
structure Task where
  id : String
  name : String
  description : String
  creator : String
  workflow : Workflow
  status : TaskStatus
  result : Option (List (String × Payload))
  error : Option String
  budget : Option TaskBudget
  deadline : Option Nat
  createdAt : Nat
  updatedAt : Nat
  startedAt : Option Nat
  completedAt : Option Nat
deriving DecidableEq, Repr

/-- The `TaskExecution` from `src/core/orchestration/types.ts` (scratchpad of a
running task). -/
structure TaskExecution where
  taskId : String
  completedSteps : List String
  failedSteps : List String
  currentStepId : Option String
  startTime : Nat
  lastUpdated : Nat
deriving DecidableEq, Repr

/-- The `StepExecutionResult`: payload of the step-result callback. -/
structure StepExecutionResult where
  taskId : String
  stepId : String
  success : Bool
  output : Option Payload
  error : Option String
deriving DecidableEq, Repr

/-- The `TaskExecutionResult`, return value of `executeTask`.  The `task` field of
the not-found branch is `{ id } as Task` in the source (a cast, not a real
task); we model that branch's task as `none`. -/
structure TaskExecutionResult where
  task : Option Task
  success : Bool
  error : Option String
deriving DecidableEq, Repr

/-- The two `Map`s owned by `InMemoryTaskOrchestrationEngine`. -/
structure EngineState where
  tasks : List (String × Task)
  executions : List (String × TaskExecution)
deriving DecidableEq, Repr

/-- JavaScript `Map.set` / object key assignment: overwriting an existing key
keeps its original position, a new key is appended. -/
def mapSet {α : Type} (m : List (String × α)) (k : String) (v : α) :
    List (String × α) :=
  if m.any (fun p => p.1 = k) then
    m.map fun p => if p.1 = k then (k, v) else p
  else m ++ [(k, v)]

/-- The `InMemoryTaskOrchestrationEngine.executeTask`, synchronous portion.
The source additionally fires the asynchronous `processTask(id)` continuation
(whose rejections are caught); `executeTask` itself returns immediately after
the state update below. -/
def executeTask (st : EngineState) (id : String) (now : Nat) :
    EngineState × TaskExecutionResult :=
  match st.tasks.lookup id with
  | none => (st, { task := none, success := false, error := some "Task not found" })
  | some task =>
    if task.status = TaskStatus.RUNNING then
      (st, { task := some task, success := false, error := some "Task is already running" })
    else if task.status = TaskStatus.COMPLETED then
      (st, { task := some task, success := false, error := some "Task is already completed" })
    else
      let updatedTask : Task :=
        { task with status := TaskStatus.RUNNING, startedAt := some now, updatedAt := now }
      let execution : TaskExecution :=
        { taskId := id, completedSteps := [], failedSteps := [],
          currentStepId := none, startTime := now, lastUpdated := now }
      ({ tasks := mapSet st.tasks id updatedTask,
         executions := mapSet st.executions id execution },
       { task := some updatedTask, success := true, error := none })

/-- The `InMemoryTaskOrchestrationEngine.cancelTask`. -/
def cancelTask (st : EngineState) (id : String) (now : Nat) : EngineState × Bool :=
  match st.tasks.lookup id with
  | none => (st, false)
  | some task =>
    if task.status ≠ TaskStatus.RUNNING then (st, false)
    else
      let updatedTask : Task := { task with status := TaskStatus.CANCELED, updatedAt := now }
      ({ st with tasks := mapSet st.tasks id updatedTask }, true)

/-- The `InMemoryTaskOrchestrationEngine.handleStepResult`, synchronous portion;
`throw new Error('Task not found')` is modelled as `Except.error`.  The
trailing asynchronous `processTask(taskId)` continuation (whose rejections
are caught by the `.catch` in the source) is not part of the synchronous
ingress. -/
def handleStepResult (st : EngineState) (r : StepExecutionResult) (now : Nat) :
    Except String EngineState :=
  match st.tasks.lookup r.taskId, st.executions.lookup r.taskId with
  | some task, some execution =>
    let status := if r.success then StepStatus.COMPLETED else StepStatus.FAILED
    let updatedWorkflow := updateStepStatus task.workflow r.stepId status r.output r.error now
    let updatedTask : Task := { task with workflow := updatedWorkflow, updatedAt := now }
    let execution2 : TaskExecution :=
      { execution with
        completedSteps :=
          if r.success then execution.completedSteps ++ [r.stepId]
          else execution.completedSteps
        failedSteps :=
          if r.success then execution.failedSteps
          else execution.failedSteps ++ [r.stepId]
        currentStepId := none
        lastUpdated := now }
    Except.ok
      { tasks := mapSet st.tasks r.taskId updatedTask,
        executions := mapSet st.executions r.taskId execution2 }
  | _, _ => Except.error "Task not found"

/-- The `InMemoryTaskOrchestrationEngine.handleTaskCompletion`, the per-task
finalization (the surrounding map lookup/set is immediate). -/
def handleTaskCompletion (task : Task) (now : Nat) : Task :=
  let failedSteps := task.workflow.steps.filter fun step => step.status = StepStatus.FAILED
  let finalStatus := if failedSteps.length > 0 then TaskStatus.FAILED else TaskStatus.COMPLETED
  let result := (task.workflow.steps.filter fun step => step.status = StepStatus.COMPLETED).foldl
    (fun acc step =>
      match step.output with
      | some o => mapSet acc step.id o
      | none => acc) []
  let n := failedSteps.length
  { task with
    status := finalStatus
    result := some result
    error :=
      if failedSteps.length > 0 then some (s!"Task failed due to {n} failed steps")
      else none
    completedAt := some now
    updatedAt := now }

end AgentBlend

namespace AgentBlend

/-! ## Association-list lemmas for `mapSet` -/

theorem lookup_map_replace {α : Type} (k : String) (v : α) :
    ∀ m : List (String × α),
      (m.map fun p => if p.1 = k then (k, v) else p).lookup k =
        if m.any (fun p => p.1 = k) then some v else none := by
  intro m
  induction m with
  | nil => simp
  | cons p rest ih =>
    rw [List.map_cons]
    by_cases h : p.1 = k
    · rw [if_pos h]
      simp [List.lookup_cons, List.any_cons, h]
    · have hk : k ≠ p.1 := fun hk => h hk.symm
      rw [if_neg h]
      cases hp : p with
      | mk a b =>
        have hk2 : k ≠ a := by rw [hp] at hk; exact hk
        simp only [List.lookup_cons, beq_false_of_ne hk2, ih, List.any_cons]
        have hne : ¬ (a = k) := fun hh => hk2 hh.symm
        simp only [decide_eq_false hne, Bool.false_or]

theorem lookup_append_singleton {α : Type} (k : String) (v : α) :
    ∀ m : List (String × α), m.any (fun p => p.1 = k) = false →
      (m ++ [(k, v)]).lookup k = some v := by
  intro m
  induction m with
  | nil => simp [List.lookup_cons]
  | cons p rest ih =>
    intro h
    simp only [List.any_cons, Bool.or_eq_false_iff, decide_eq_false_iff_not] at h
    have hk : k ≠ p.1 := fun hk => h.1 hk.symm
    cases hp : p with
    | mk a b =>
      have hk2 : k ≠ a := by rw [hp] at hk; exact hk
      rw [List.cons_append]
      simp only [List.lookup_cons, beq_false_of_ne hk2]
      exact ih h.2

/-- After `mapSet m k v`, looking up `k` yields `v`. -/
theorem lookup_mapSet_self {α : Type} (m : List (String × α)) (k : String) (v : α) :
    (mapSet m k v).lookup k = some v := by
  unfold mapSet
  by_cases h : (m.any fun p => p.1 = k) = true
  · rw [if_pos h, lookup_map_replace, if_pos h]
  · have h2 : (m.any fun p => p.1 = k) = false := by
      cases hb : (m.any fun p => p.1 = k) with
      | false => rfl
      | true => exact absurd hb h
    rw [if_neg h]
    exact lookup_append_singleton k v m h2

/-! ## C4: finality of terminal task statuses -/

/-- A task that has already FAILED. -/
def failedTask : Task :=
  { id := "t1", name := "t1", description := "d", creator := "alice",
    workflow := { steps := [{ baseStep "A" [] with status := StepStatus.FAILED }] },
    status := TaskStatus.FAILED, result := none, error := none, budget := none,
    deadline := none, createdAt := 0, updatedAt := 0, startedAt := some 0,
    completedAt := some 1 }

/-- Engine state holding only `failedTask`. -/
def stFailed : EngineState := { tasks := [("t1", failedTask)], executions := [] }

/-- C4 counterexample: `executeTask` only rejects RUNNING and COMPLETED
tasks, so calling it on a FAILED task flips the status back to RUNNING —
terminal states are not final. -/
theorem c4_counterexample :
    failedTask.status = TaskStatus.FAILED ∧
    ((executeTask stFailed "t1" 3).1.tasks.lookup "t1").map Task.status =
      some TaskStatus.RUNNING ∧
    TaskStatus.RUNNING ≠ TaskStatus.FAILED := by
  decide

/-- C4 (amended): a COMPLETED task is left untouched by both `executeTask`
and `cancelTask`, and `cancelTask` also leaves FAILED and CANCELED tasks
untouched; but `executeTask` on a FAILED or CANCELED task restarts it,
setting its status back to RUNNING. -/
theorem c4_amended (st : EngineState) (id : String) (now : Nat) (task : Task)
    (h : st.tasks.lookup id = some task) :
    (task.status = TaskStatus.COMPLETED →
      (executeTask st id now).1 = st ∧ (cancelTask st id now).1 = st) ∧
    ((task.status = TaskStatus.FAILED ∨ task.status = TaskStatus.CANCELED) →
      (cancelTask st id now).1 = st ∧
      ((executeTask st id now).1.tasks.lookup id).map Task.status =
        some TaskStatus.RUNNING) := by
  constructor
  · intro hs
    constructor
    · simp [executeTask, h, hs]
    · simp [cancelTask, h, hs]
  · intro hs
    have hne : task.status ≠ TaskStatus.RUNNING := by
      rcases hs with hs | hs <;> simp [hs]
    have hne2 : task.status ≠ TaskStatus.COMPLETED := by
      rcases hs with hs | hs <;> simp [hs]
    constructor
    · simp [cancelTask, h, hne]
    · simp only [executeTask, h, if_neg hne, if_neg hne2]
      rw [lookup_mapSet_self]
      rfl

/-- C4 amended witness: instantiated on the concrete FAILED task above. -/
theorem c4_amended_witness :
    (cancelTask stFailed "t1" 3).1 = stFailed ∧
    ((executeTask stFailed "t1" 3).1.tasks.lookup "t1").map Task.status =
      some TaskStatus.RUNNING :=
  (c4_amended stFailed "t1" 3 failedTask (by decide)).2 (Or.inl (by decide))

/-! ## C5: step-result ingress -/

/-- The empty engine state. -/
def emptyEngine : EngineState := { tasks := [], executions := [] }

/-- C5 counterexample: submitting a step result for an unknown taskId makes
`handleStepResult` throw (`throw new Error('Task not found')`), refuting
"completes without throwing including when the taskId is unknown". -/
theorem c5_counterexample :
    handleStepResult emptyEngine
      { taskId := "t", stepId := "s", success := true, output := none, error := none } 0 =
      Except.error "Task not found" := rfl

/-- C5 (amended): when the taskId is known (both a task and an execution
record exist) `handleStepResult` completes without throwing — in particular
for an unknown stepId and for duplicate submissions of the same
(taskId, stepId) pair, since it never inspects either condition; when the
taskId is unknown to either map it throws "Task not found". -/
theorem c5_amended (st : EngineState) (r : StepExecutionResult) (now : Nat) :
    (∀ task execution, st.tasks.lookup r.taskId = some task →
        st.executions.lookup r.taskId = some execution →
        ∃ st2, handleStepResult st r now = Except.ok st2) ∧
    ((st.tasks.lookup r.taskId = none ∨ st.executions.lookup r.taskId = none) →
      handleStepResult st r now = Except.error "Task not found") := by
  constructor
  · intro task execution h1 h2
    unfold handleStepResult
    rw [h1, h2]
    exact ⟨_, rfl⟩
  · intro h
    rcases h with h | h
    · simp only [handleStepResult, h]
    · cases h1 : st.tasks.lookup r.taskId with
      | none => simp only [handleStepResult, h1]
      | some task => simp only [handleStepResult, h1, h]

/-- A RUNNING task used to witness the no-throw branch of C5. -/
def runningTask : Task :=
  { id := "t1", name := "t1", description := "d", creator := "alice",
    workflow := { steps := [baseStep "A" []] },
    status := TaskStatus.RUNNING, result := none, error := none, budget := none,
    deadline := none, createdAt := 0, updatedAt := 0, startedAt := some 0,
    completedAt := none }

/-- The fresh execution record of `runningTask`. -/
def runningExecution : TaskExecution :=
  { taskId := "t1", completedSteps := [], failedSteps := [],
    currentStepId := none, startTime := 0, lastUpdated := 0 }

/-- Engine state holding `runningTask` with its execution record. -/
def stRunning : EngineState :=
  { tasks := [("t1", runningTask)], executions := [("t1", runningExecution)] }

/-- C5 amended witness: a submission for a known task — with a stepId that
does not even exist in the workflow — completes without throwing. -/
theorem c5_amended_witness :
    ∃ st2, handleStepResult stRunning
      { taskId := "t1", stepId := "ghost", success := true,
        output := some [("x", 1)], error := none } 7 = Except.ok st2 :=
  (c5_amended stRunning
      { taskId := "t1", stepId := "ghost", success := true,
        output := some [("x", 1)], error := none } 7).1
    runningTask runningExecution (by decide) (by decide)

end AgentBlend

namespace AgentBlend

/-! ## C3: task finalization -/

/-- The result entries contributed by a list of steps: one `(id, output)`
pair per step that has an output. -/
def resultEntries (L : List WorkflowStep) : List (String × Payload) :=
  L.filterMap fun s => s.output.map fun o => (s.id, o)

theorem mapSet_append_of_not_mem {α : Type} (m : List (String × α)) (k : String) (v : α)
    (h : k ∉ m.map Prod.fst) : mapSet m k v = m ++ [(k, v)] := by
  unfold mapSet
  rw [if_neg]
  intro hany
  rw [List.any_eq_true] at hany
  obtain ⟨p, hp, he⟩ := hany
  rw [decide_eq_true_eq] at he
  exact h (List.mem_map.mpr ⟨p, hp, he⟩)

theorem resultEntries_keys_sublist :
    ∀ L : List WorkflowStep,
      List.Sublist ((resultEntries L).map Prod.fst) (L.map fun s => s.id) := by
  intro L
  induction L with
  | nil => simp [resultEntries]
  | cons s L ih =>
    cases ho : s.output with
    | none =>
      simp only [resultEntries, List.filterMap_cons, ho, Option.map_none', List.map_cons]
      exact (ih).cons _
    | some o =>
      simp only [resultEntries, List.filterMap_cons, ho, Option.map_some', List.map_cons]
      exact (ih).cons₂ _

theorem foldl_result_eq_append :
    ∀ (L : List WorkflowStep) (acc : List (String × Payload)),
      (L.map fun s => s.id).Nodup →
      (∀ s ∈ L, s.id ∉ acc.map Prod.fst) →
      L.foldl (fun acc step =>
        match step.output with
        | some o => mapSet acc step.id o
        | none => acc) acc = acc ++ resultEntries L := by
  intro L
  induction L with
  | nil =>
    intro acc _ _
    simp [resultEntries]
  | cons s L ih =>
    intro acc hnd hdisj
    rw [List.foldl_cons]
    rw [List.map_cons, List.nodup_cons] at hnd
    cases ho : s.output with
    | none =>
      simp only [ho]
      rw [ih acc hnd.2 (fun s' hs' => hdisj s' (List.mem_cons_of_mem _ hs'))]
      simp [resultEntries, List.filterMap_cons, ho]
    | some o =>
      simp only [ho]
      rw [mapSet_append_of_not_mem _ _ _ (hdisj s (List.mem_cons_self _ _))]
      rw [ih (acc ++ [(s.id, o)]) hnd.2 ?_]
      · simp [resultEntries, List.filterMap_cons, ho]
      · intro s' hs'
        rw [List.map_append, List.mem_append]
        rintro (hin | hin)
        · exact hdisj s' (List.mem_cons_of_mem _ hs') hin
        · simp only [List.map_cons, List.map_nil, List.mem_singleton] at hin
          exact hnd.1 (hin ▸ List.mem_map.mpr ⟨s', hs', rfl⟩)

theorem lookup_eq_some_iff_mem {α : Type} :
    ∀ (m : List (String × α)), (m.map Prod.fst).Nodup →
      ∀ (k : String) (v : α), (m.lookup k = some v ↔ (k, v) ∈ m) := by
  intro m
  induction m with
  | nil => simp
  | cons p rest ih =>
    intro hnd k v
    rw [List.map_cons, List.nodup_cons] at hnd
    cases p with
    | mk a b =>
      by_cases h : k = a
      · subst h
        simp only [List.lookup_cons, beq_self_eq_true, List.mem_cons, Prod.mk.injEq,
          true_and, eq_self_iff_true]
        constructor
        · intro h2
          rw [Option.some.injEq] at h2
          exact Or.inl h2.symm
        · rintro (rfl | hmem)
          · rfl
          · exact absurd (List.mem_map.mpr ⟨(k, v), hmem, rfl⟩) hnd.1
      · simp only [List.lookup_cons, beq_false_of_ne h, List.mem_cons, Prod.mk.injEq]
        rw [ih hnd.2 k v]
        constructor
        · exact Or.inr
        · rintro (⟨rfl, -⟩ | hmem)
          · exact absurd rfl h
          · exact hmem

/-- C3: when a complete workflow (all steps COMPLETED/FAILED/SKIPPED, step
ids unique) is finalized, the task status is FAILED iff some step FAILED
and COMPLETED otherwise, and the aggregated result maps an id to an output
exactly when the step with that id is COMPLETED and produced that output
(FAILED and SKIPPED steps contribute nothing). -/
theorem c3_finalization (task : Task) (now : Nat)
    (hcomplete : isComplete task.workflow = true)
    (hnd : (task.workflow.steps.map fun s => s.id).Nodup) :
    ((handleTaskCompletion task now).status = TaskStatus.FAILED ↔
      ∃ s ∈ task.workflow.steps, s.status = StepStatus.FAILED) ∧
    ((handleTaskCompletion task now).status = TaskStatus.COMPLETED ↔
      ¬ ∃ s ∈ task.workflow.steps, s.status = StepStatus.FAILED) ∧
    (∀ stepId o,
      ((handleTaskCompletion task now).result.getD []).lookup stepId = some o ↔
        ∃ s ∈ task.workflow.steps,
          s.id = stepId ∧ s.status = StepStatus.COMPLETED ∧ s.output = some o) := by
  have hflen : ((task.workflow.steps.filter fun step =>
      step.status = StepStatus.FAILED).length > 0) ↔
      ∃ s ∈ task.workflow.steps, s.status = StepStatus.FAILED := by
    rw [gt_iff_lt, List.length_pos, Ne, List.filter_eq_nil_iff]
    push_neg
    simp only [decide_eq_true_eq]
  have hstat : (handleTaskCompletion task now).status =
      if (task.workflow.steps.filter fun step =>
        step.status = StepStatus.FAILED).length > 0
      then TaskStatus.FAILED else TaskStatus.COMPLETED := rfl
  have hndC : ((task.workflow.steps.filter fun step =>
      step.status = StepStatus.COMPLETED).map fun s => s.id).Nodup := by
    refine List.Nodup.sublist ?_ hnd
    exact List.Sublist.map _ (List.filter_sublist _)
  have hkeys : ((resultEntries (task.workflow.steps.filter fun step =>
      step.status = StepStatus.COMPLETED)).map Prod.fst).Nodup :=
    List.Nodup.sublist (resultEntries_keys_sublist _) hndC
  refine ⟨?_, ?_, ?_⟩
  · rw [hstat]
    by_cases hf : ∃ s ∈ task.workflow.steps, s.status = StepStatus.FAILED
    · rw [if_pos (hflen.mpr hf)]
      simp [hf]
    · rw [if_neg (fun h => hf (hflen.mp h))]
      simp [hf]
  · rw [hstat]
    by_cases hf : ∃ s ∈ task.workflow.steps, s.status = StepStatus.FAILED
    · rw [if_pos (hflen.mpr hf)]
      simp [hf]
    · rw [if_neg (fun h => hf (hflen.mp h))]
      simp [hf]
  · intro stepId o
    have hres : (handleTaskCompletion task now).result =
        some ((task.workflow.steps.filter fun step =>
          step.status = StepStatus.COMPLETED).foldl
          (fun acc step =>
            match step.output with
            | some o => mapSet acc step.id o
            | none => acc) []) := rfl
    rw [hres]
    rw [Option.getD_some]
    rw [foldl_result_eq_append _ [] hndC (by intro s _; simp)]
    rw [List.nil_append]
    rw [lookup_eq_some_iff_mem _ hkeys stepId o]
    simp only [resultEntries, List.mem_filterMap, List.mem_filter, decide_eq_true_eq,
      Option.map_eq_some', Prod.mk.injEq]
    constructor
    · rintro ⟨s, ⟨hs, hstatus⟩, o2, ho2, hid, hoeq⟩
      exact ⟨s, hs, hid, hstatus, by rw [ho2, hoeq]⟩
    · rintro ⟨s, hs, hid, hstatus, ho⟩
      exact ⟨s, ⟨hs, hstatus⟩, o, ho, hid, rfl⟩

/-- A task whose two steps A and B both COMPLETED with outputs
`{x: 1}` and `{y: 2}`. -/
def taskAB : Task :=
  { id := "t2", name := "t2", description := "d", creator := "alice",
    workflow := { steps :=
      [{ baseStep "A" [] with status := StepStatus.COMPLETED, output := some [("x", 1)] },
       { baseStep "B" ["A"] with status := StepStatus.COMPLETED, output := some [("y", 2)] }] },
    status := TaskStatus.RUNNING, result := none, error := none, budget := none,
    deadline := none, createdAt := 0, updatedAt := 0, startedAt := some 0,
    completedAt := none }

/-- C3 witness: finalizing `taskAB` yields status COMPLETED and the result
`{A: {x: 1}, B: {y: 2}}`, matching the claim's concrete instance. -/
theorem c3_finalization_witness :
    ((handleTaskCompletion taskAB 7).status = TaskStatus.COMPLETED ↔
      ¬ ∃ s ∈ taskAB.workflow.steps, s.status = StepStatus.FAILED) ∧
    (handleTaskCompletion taskAB 7).result = some [("A", [("x", 1)]), ("B", [("y", 2)])] ∧
    (handleTaskCompletion taskAB 7).status = TaskStatus.COMPLETED :=
  ⟨(c3_finalization taskAB 7 (by decide) (by decide)).2.1, by decide, by decide⟩

end AgentBlend

namespace AgentBlend

/-! ## SimpleDecisionEngine (`src/core/decision/types.ts`)

JavaScript numbers in the scoring arithmetic are modelled by `ℚ`; the
numeric-string `amount` fields are modelled by their `parseFloat` values. -/

/-- One element of a worker's `taskExecutions` history. -/
structure TaskExecRecord where
  taskId : String
  stepId : String
  success : Bool
  executionTime : ℚ
  timestamp : Nat
deriving DecidableEq, Repr

/-- The `performanceData` map of `SimpleDecisionEngine` (agent id to its
`taskExecutions` array). -/
abbrev PerformanceData := List (String × List TaskExecRecord)

/-- The `SimpleDecisionEngine.recordAgentPerformance`: get-or-create the agent's
history, push the new execution, and keep only the last 100 entries
(`slice(-100)`). -/
def recordAgentPerformance (pd : PerformanceData) (agentId taskId stepId : String)
    (success : Bool) (executionTime : ℚ) (now : Nat) : PerformanceData :=
  let old := (pd.lookup agentId).getD []
  let h2 := old ++ [{ taskId := taskId, stepId := stepId, success := success,
                      executionTime := executionTime, timestamp := now }]
  let h3 := if h2.length > 100 then h2.drop (h2.length - 100) else h2
  mapSet pd agentId h3

/-! ### C8: bounded history -/

/-- One call to `recordAgentPerformance`, for folding over call sequences. -/
structure OutcomeCall where
  agentId : String
  taskId : String
  stepId : String
  success : Bool
  executionTime : ℚ
  now : Nat
deriving DecidableEq, Repr

/-- Fold a sequence of `recordAgentPerformance` calls over a starting map. -/
def applyCalls (pd : PerformanceData) (calls : List OutcomeCall) : PerformanceData :=
  calls.foldl (fun pd c =>
    recordAgentPerformance pd c.agentId c.taskId c.stepId c.success c.executionTime c.now) pd

/-- The execution record a call appends. -/
def callRecord (c : OutcomeCall) : TaskExecRecord :=
  { taskId := c.taskId, stepId := c.stepId, success := c.success,
    executionTime := c.executionTime, timestamp := c.now }

/-- The records a call sequence contributes to agent `a`, in recording order. -/
def recordsFor (a : String) (calls : List OutcomeCall) : List TaskExecRecord :=
  (calls.filter fun c => c.agentId = a).map callRecord

/-- The last `n` elements of a list. -/
def lastN {α : Type} (n : Nat) (l : List α) : List α := l.drop (l.length - n)

theorem lastN_of_length_le {α : Type} (n : Nat) (l : List α) (h : l.length ≤ n) :
    lastN n l = l := by
  unfold lastN
  rw [Nat.sub_eq_zero_of_le h, List.drop_zero]

theorem lastN_length {α : Type} (n : Nat) (l : List α) :
    (lastN n l).length = min n l.length := by
  unfold lastN
  rw [List.length_drop]
  omega

theorem lastN_eq_reverse_take {α : Type} (n : Nat) (l : List α) :
    lastN n l = (l.reverse.take n).reverse := by
  unfold lastN
  rw [List.take_reverse, List.reverse_reverse]

/-- Truncating to the last `n`, appending, and truncating again is the same
as truncating the whole concatenation. -/
theorem lastN_append_lastN {α : Type} (n : Nat) (xs ys : List α) :
    lastN n (lastN n xs ++ ys) = lastN n (xs ++ ys) := by
  rw [lastN_eq_reverse_take n xs, lastN_eq_reverse_take, lastN_eq_reverse_take]
  rw [List.reverse_append, List.reverse_append]
  rw [List.reverse_reverse]
  congr 1
  rw [List.take_append_eq_append_take, List.take_append_eq_append_take]
  congr 1
  rw [List.take_take]
  rw [Nat.min_eq_left (Nat.sub_le _ _)]

/-- The source's `slice(-100)` truncation step is exactly `lastN 100`. -/
theorem trunc_eq_lastN (l : List TaskExecRecord) :
    (if l.length > 100 then l.drop (l.length - 100) else l) = lastN 100 l := by
  by_cases h : l.length > 100
  · rw [if_pos h]
    rfl
  · rw [if_neg h]
    rw [lastN_of_length_le 100 l (by omega)]

theorem lookup_map_replace_ne {α : Type} (k k2 : String) (v : α) (h : k2 ≠ k) :
    ∀ m : List (String × α),
      (m.map fun p => if p.1 = k then (k, v) else p).lookup k2 = m.lookup k2 := by
  intro m
  induction m with
  | nil => simp
  | cons p rest ih =>
    rw [List.map_cons]
    by_cases hp : p.1 = k
    · rw [if_pos hp]
      cases p with
      | mk a b =>
        simp only at hp
        subst hp
        simp only [List.lookup_cons, beq_false_of_ne h]
        exact ih
    · rw [if_neg hp]
      cases p with
      | mk a b =>
        by_cases ha : k2 = a
        · subst ha
          simp [List.lookup_cons]
        · simp only [List.lookup_cons, beq_false_of_ne ha]
          exact ih

theorem lookup_append_singleton_ne {α : Type} (k k2 : String) (v : α) (h : k2 ≠ k) :
    ∀ m : List (String × α), (m ++ [(k, v)]).lookup k2 = m.lookup k2 := by
  intro m
  induction m with
  | nil => simp [List.lookup_cons, beq_false_of_ne h]
  | cons p rest ih =>
    cases p with
    | mk a b =>
      by_cases ha : k2 = a
      · subst ha
        simp [List.lookup_cons]
      · rw [List.cons_append]
        simp only [List.lookup_cons, beq_false_of_ne ha]
        exact ih

/-- The `mapSet` does not disturb other keys. -/
theorem lookup_mapSet_ne {α : Type} (m : List (String × α)) (k k2 : String) (v : α)
    (h : k2 ≠ k) : (mapSet m k v).lookup k2 = m.lookup k2 := by
  unfold mapSet
  by_cases hb : (m.any fun p => p.1 = k) = true
  · rw [if_pos hb]
    exact lookup_map_replace_ne k k2 v h m
  · rw [if_neg hb]
    exact lookup_append_singleton_ne k k2 v h m

theorem applyCalls_cons (pd : PerformanceData) (c : OutcomeCall) (calls : List OutcomeCall) :
    applyCalls pd (c :: calls) =
      applyCalls (recordAgentPerformance pd c.agentId c.taskId c.stepId
        c.success c.executionTime c.now) calls := rfl

theorem recordsFor_cons_self (a : String) (c : OutcomeCall) (calls : List OutcomeCall)
    (h : c.agentId = a) :
    recordsFor a (c :: calls) = callRecord c :: recordsFor a calls := by
  simp [recordsFor, h]

theorem recordsFor_cons_ne (a : String) (c : OutcomeCall) (calls : List OutcomeCall)
    (h : ¬ c.agentId = a) :
    recordsFor a (c :: calls) = recordsFor a calls := by
  simp [recordsFor, h]

theorem record_eq_mapSet_lastN (pd : PerformanceData) (c : OutcomeCall) :
    recordAgentPerformance pd c.agentId c.taskId c.stepId c.success c.executionTime c.now =
      mapSet pd c.agentId
        (lastN 100 (((pd.lookup c.agentId).getD []) ++ [callRecord c])) := by
  simp only [recordAgentPerformance, trunc_eq_lastN, callRecord]

/-- Running a call sequence from any map whose history for `a` is within the
capacity leaves `a`'s history equal to the last 100 of the concatenation. -/
theorem applyCalls_hist :
    ∀ (calls : List OutcomeCall) (pd : PerformanceData) (a : String),
      ((pd.lookup a).getD []).length ≤ 100 →
      (((applyCalls pd calls).lookup a).getD []) =
        lastN 100 (((pd.lookup a).getD []) ++ recordsFor a calls) := by
  intro calls
  induction calls with
  | nil =>
    intro pd a hlen
    unfold applyCalls recordsFor
    simp only [List.foldl_nil, List.filter_nil, List.map_nil, List.append_nil]
    rw [lastN_of_length_le _ _ hlen]
  | cons c calls ih =>
    intro pd a hlen
    rw [applyCalls_cons, record_eq_mapSet_lastN]
    by_cases hac : c.agentId = a
    · subst hac
      have hl : ((mapSet pd c.agentId
          (lastN 100 (((pd.lookup c.agentId).getD []) ++ [callRecord c]))).lookup
            c.agentId).getD [] =
          lastN 100 (((pd.lookup c.agentId).getD []) ++ [callRecord c]) := by
        rw [lookup_mapSet_self]
        rfl
      have hlen2 : (lastN 100 (((pd.lookup c.agentId).getD []) ++ [callRecord c])).length ≤ 100 := by
        rw [lastN_length]
        omega
      rw [ih _ c.agentId (by rw [hl]; exact hlen2)]
      rw [hl]
      rw [lastN_append_lastN]
      rw [recordsFor_cons_self _ _ _ rfl]
      rw [List.append_assoc, List.singleton_append]
    · have hl : ((mapSet pd c.agentId
          (lastN 100 (((pd.lookup c.agentId).getD []) ++ [callRecord c]))).lookup a) =
          pd.lookup a :=
        lookup_mapSet_ne _ _ _ _ (fun h2 => hac h2.symm)
      rw [ih _ a (by rw [hl]; exact hlen)]
      rw [hl]
      rw [recordsFor_cons_ne _ _ _ hac]

/-- C8: after any sequence of `recordAgentPerformance` calls starting from
the empty map, each agent's stored history is exactly the last 100 of its
recorded outcomes in recording order (oldest dropped first), and in
particular never exceeds 100 entries. -/
theorem c8_bounded_history (calls : List OutcomeCall) (a : String) :
    (((applyCalls [] calls).lookup a).getD []) = lastN 100 (recordsFor a calls) ∧
    (((applyCalls [] calls).lookup a).getD []).length ≤ 100 := by
  have h := applyCalls_hist calls [] a (by simp)
  simp only [List.lookup_nil, Option.getD_none, List.nil_append] at h
  refine ⟨h, ?_⟩
  rw [h, lastN_length]
  omega

end AgentBlend

namespace AgentBlend

/-! ## C7: `selectAgent` scoring and ranking -/

/-- The `AgentCandidate` from `src/core/decision/types.ts`; `estimatedCost` is
`{amount, token}` with the numeric-string amount modelled by its parsed
value. -/
structure AgentCandidate where
  agentId : String
  score : ℚ
  matchedCapabilities : List String
  matchedNetworks : List String
  estimatedCost : Option (ℚ × String)
  estimatedTime : Option ℚ
deriving DecidableEq, Repr

/-- The `AgentSelectionContext` from `src/core/decision/types.ts`. -/
structure AgentSelectionContext where
  requiredCapabilities : List String
  requiredNetworks : Option (List String)
  taskId : Option String
  stepId : Option String
  priority : Option ℚ
  deadline : Option ℚ
  budget : Option (ℚ × String)
deriving DecidableEq, Repr

/-- The success rate computed inside `selectAgent`: fraction of successful
executions, defaulting to 0.5 when the history is empty. -/
def successRateOf (executions : List TaskExecRecord) : ℚ :=
  if executions.length > 0 then
    ((executions.filter fun e => e.success).length : ℚ) / (executions.length : ℚ)
  else (1 : ℚ) / 2

/-- The score adjustment pipeline of `selectAgent` for one candidate:
historical factor (only when the map has an entry), deadline factor
(skipped when `estimatedTime` is 0 — falsy in JavaScript), budget factor
(only when the tokens match). -/
def adjustedScore (pd : PerformanceData) (now : ℚ) (context : AgentSelectionContext)
    (candidate : AgentCandidate) : ℚ :=
  let score0 := candidate.score
  let score1 :=
    match pd.lookup candidate.agentId with
    | some executions => score0 * ((1 : ℚ) / 2 + successRateOf executions)
    | none => score0
  let score2 :=
    match context.deadline, candidate.estimatedTime with
    | some deadline, some t =>
      if t = 0 then score1
      else if t > deadline - now then score1 * ((1 : ℚ) / 2) else score1
    | _, _ => score1
  match context.budget, candidate.estimatedCost with
  | some budget, some cost =>
    if budget.2 = cost.2 ∧ cost.1 > budget.1 then score2 * ((1 : ℚ) / 2) else score2
  | _, _ => score2

/-- Stable descending insertion: a new element goes after all strictly
higher scores and before equal ones that came later in the input. -/
def insertDesc (x : AgentCandidate × ℚ) :
    List (AgentCandidate × ℚ) → List (AgentCandidate × ℚ)
  | [] => [x]
  | y :: ys => if y.2 > x.2 then y :: insertDesc x ys else x :: y :: ys

/-- Stable sort by descending adjusted score.  `Array.prototype.sort` with
the comparator `(a, b) => b.adjustedScore - a.adjustedScore` is required by
ECMAScript to be stable, and a stable sort for a total preorder is unique,
so this insertion sort computes exactly the source's ordering. -/
def sortDesc : List (AgentCandidate × ℚ) → List (AgentCandidate × ℚ)
  | [] => []
  | x :: xs => insertDesc x (sortDesc xs)

/-- The `SimpleDecisionEngine.selectAgent`: empty candidate list yields null;
otherwise score, sort descending, return the head's agent id. -/
def selectAgent (pd : PerformanceData) (now : ℚ) (context : AgentSelectionContext)
    (candidates : List AgentCandidate) : Option String :=
  match candidates with
  | [] => none
  | _ :: _ =>
    ((sortDesc (candidates.map fun c => (c, adjustedScore pd now context c))).head?).map
      fun p => p.1.agentId

/-- On a two-candidate list, `selectAgent` returns the second candidate
exactly when its adjusted score is strictly higher (ties keep input order). -/
theorem selectAgent_pair (pd : PerformanceData) (now : ℚ)
    (context : AgentSelectionContext) (c1 c2 : AgentCandidate) :
    selectAgent pd now context [c1, c2] =
      some (if adjustedScore pd now context c2 > adjustedScore pd now context c1
            then c2.agentId else c1.agentId) := by
  by_cases h : adjustedScore pd now context c2 > adjustedScore pd now context c1
  · simp [selectAgent, sortDesc, insertDesc, h]
  · simp [selectAgent, sortDesc, insertDesc, h]

/-! ### Factor decomposition of `adjustedScore` -/

/-- The historical-performance multiplier of a candidate. -/
def histFactor (pd : PerformanceData) (c : AgentCandidate) : ℚ :=
  match pd.lookup c.agentId with
  | some executions => (1 : ℚ) / 2 + successRateOf executions
  | none => 1

/-- The deadline multiplier of a candidate. -/
def dlFactor (now : ℚ) (context : AgentSelectionContext) (c : AgentCandidate) : ℚ :=
  match context.deadline, c.estimatedTime with
  | some deadline, some t =>
    if t = 0 then 1 else if t > deadline - now then (1 : ℚ) / 2 else 1
  | _, _ => 1

/-- The budget multiplier of a candidate. -/
def budgetFactor (context : AgentSelectionContext) (c : AgentCandidate) : ℚ :=
  match context.budget, c.estimatedCost with
  | some budget, some cost =>
    if budget.2 = cost.2 ∧ cost.1 > budget.1 then (1 : ℚ) / 2 else 1
  | _, _ => 1

theorem adjustedScore_eq_factors (pd : PerformanceData) (now : ℚ)
    (context : AgentSelectionContext) (c : AgentCandidate) :
    adjustedScore pd now context c =
      c.score * histFactor pd c * dlFactor now context c * budgetFactor context c := by
  unfold adjustedScore histFactor dlFactor budgetFactor
  cases pd.lookup c.agentId <;>
    cases context.deadline <;>
      cases c.estimatedTime <;>
        cases context.budget <;>
          cases c.estimatedCost <;>
            simp only [] <;> (try split_ifs) <;> ring

theorem successRateOf_nonneg (executions : List TaskExecRecord) :
    0 ≤ successRateOf executions := by
  unfold successRateOf
  split_ifs with h
  · positivity
  · norm_num

theorem histFactor_pos (pd : PerformanceData) (c : AgentCandidate) :
    0 < histFactor pd c := by
  unfold histFactor
  cases pd.lookup c.agentId with
  | none => norm_num
  | some ex =>
    have := successRateOf_nonneg ex
    simp only []
    linarith

theorem dlFactor_pos (now : ℚ) (context : AgentSelectionContext) (c : AgentCandidate) :
    0 < dlFactor now context c := by
  unfold dlFactor
  cases context.deadline <;> cases c.estimatedTime <;>
    simp only [] <;> (try split_ifs) <;> norm_num

theorem budgetFactor_pos (context : AgentSelectionContext) (c : AgentCandidate) :
    0 < budgetFactor context c := by
  unfold budgetFactor
  cases context.budget <;> cases c.estimatedCost <;>
    simp only [] <;> (try split_ifs) <;> norm_num

theorem dlFactor_congr (now : ℚ) (context : AgentSelectionContext)
    (c1 c2 : AgentCandidate) (h : c1.estimatedTime = c2.estimatedTime) :
    dlFactor now context c1 = dlFactor now context c2 := by
  unfold dlFactor
  rw [h]

theorem budgetFactor_congr (context : AgentSelectionContext)
    (c1 c2 : AgentCandidate) (h : c1.estimatedCost = c2.estimatedCost) :
    budgetFactor context c1 = budgetFactor context c2 := by
  unfold budgetFactor
  rw [h]

theorem histFactor_of_none (pd : PerformanceData) (c : AgentCandidate)
    (h : pd.lookup c.agentId = none) : histFactor pd c = 1 := by
  unfold histFactor
  rw [h]

theorem histFactor_of_some (pd : PerformanceData) (c : AgentCandidate)
    (ex : List TaskExecRecord) (h : pd.lookup c.agentId = some ex) :
    histFactor pd c = (1 : ℚ) / 2 + successRateOf ex := by
  unfold histFactor
  rw [h]

end AgentBlend

namespace AgentBlend

/-- A selection context with no deadline and no budget. -/
def ctxPlain : AgentSelectionContext :=
  { requiredCapabilities := [], requiredNetworks := none, taskId := none,
    stepId := none, priority := none, deadline := none, budget := none }

/-- A candidate with base score 0 and no estimates. -/
def candZero (i : String) : AgentCandidate :=
  { agentId := i, score := 0, matchedCapabilities := [], matchedNetworks := [],
    estimatedCost := none, estimatedTime := none }

/-- A one-element execution history entry. -/
def execRec (b : Bool) : TaskExecRecord :=
  { taskId := "t", stepId := "s", success := b, executionTime := 1, timestamp := 0 }

/-- Performance data where agent "low" always failed and agent "high"
always succeeded. -/
def pdC7 : PerformanceData := [("low", [execRec false]), ("high", [execRec true])]

/-- C7 counterexample: with identical base score 0 and identical (absent)
cost/time estimates, all adjusted scores are 0, the stable sort keeps input
order, and `selectAgent` returns the *lower*-success-rate candidate listed
first — so the higher success rate does not always rank first. -/
theorem c7_counterexample :
    successRateOf [execRec true] > successRateOf [execRec false] ∧
    (candZero "low").score = (candZero "high").score ∧
    (candZero "low").estimatedCost = (candZero "high").estimatedCost ∧
    (candZero "low").estimatedTime = (candZero "high").estimatedTime ∧
    selectAgent pdC7 0 ctxPlain [candZero "low", candZero "high"] = some "low" ∧
    ("low" : String) ≠ "high" := by
  have h0 : ∀ i, adjustedScore pdC7 0 ctxPlain (candZero i) = 0 := by
    intro i
    rw [adjustedScore_eq_factors]
    simp [candZero]
  refine ⟨by norm_num [successRateOf, execRec], rfl, rfl, rfl, ?_, by decide⟩
  rw [selectAgent_pair]
  rw [if_neg (by rw [h0, h0]; exact lt_irrefl 0)]
  rfl

/-- C7 (amended): the claimed rankings hold once the shared base score is
*positive*.  (1) With identical positive base score and identical cost/time
estimates, the candidate with the strictly higher recorded success rate is
returned whichever order the two candidates are listed in; (2) with
identical positive base score, identical time estimates and no history, a
candidate whose estimated cost (in the budget's token) exceeds the budget
loses to an otherwise-identical candidate within budget; (3) a candidate
with no recorded history has a neutral historical factor of 1. -/
theorem c7_amended (pd : PerformanceData) (now : ℚ) (context : AgentSelectionContext)
    (c1 c2 : AgentCandidate)
    (hscore : c1.score = c2.score) (hpos : 0 < c1.score)
    (htime : c1.estimatedTime = c2.estimatedTime) :
    (∀ h1 h2, pd.lookup c1.agentId = some h1 → pd.lookup c2.agentId = some h2 →
      c1.estimatedCost = c2.estimatedCost →
      successRateOf h1 > successRateOf h2 →
      (selectAgent pd now context [c1, c2] = some c1.agentId ∧
       selectAgent pd now context [c2, c1] = some c1.agentId)) ∧
    (∀ bAmt tok cAmt1 cAmt2,
      pd.lookup c1.agentId = none → pd.lookup c2.agentId = none →
      context.budget = some (bAmt, tok) →
      c1.estimatedCost = some (cAmt1, tok) → c2.estimatedCost = some (cAmt2, tok) →
      cAmt1 ≤ bAmt → bAmt < cAmt2 →
      (selectAgent pd now context [c1, c2] = some c1.agentId ∧
       selectAgent pd now context [c2, c1] = some c1.agentId)) ∧
    (pd.lookup c1.agentId = none →
      histFactor pd c1 = 1 ∧
      adjustedScore pd now context c1 =
        c1.score * dlFactor now context c1 * budgetFactor context c1) := by
  have hd := dlFactor_pos now context c1
  have hb := budgetFactor_pos context c1
  refine ⟨?_, ?_, ?_⟩
  · intro h1 h2 hl1 hl2 hcost hsr
    have hlt : adjustedScore pd now context c2 < adjustedScore pd now context c1 := by
      rw [adjustedScore_eq_factors, adjustedScore_eq_factors]
      rw [histFactor_of_some pd c1 h1 hl1, histFactor_of_some pd c2 h2 hl2]
      rw [← hscore, ← dlFactor_congr now context c1 c2 htime,
        ← budgetFactor_congr context c1 c2 hcost]
      have hh : c1.score * ((1 : ℚ) / 2 + successRateOf h2) <
          c1.score * ((1 : ℚ) / 2 + successRateOf h1) := by
        apply mul_lt_mul_of_pos_left _ hpos
        linarith
      exact mul_lt_mul_of_pos_right (mul_lt_mul_of_pos_right hh hd) hb
    constructor
    · rw [selectAgent_pair]
      rw [if_neg (by linarith)]
    · rw [selectAgent_pair]
      rw [if_pos hlt]
  · intro bAmt tok cAmt1 cAmt2 hl1 hl2 hbud hc1 hc2 hle hgt
    have hb1 : budgetFactor context c1 = 1 := by
      unfold budgetFactor
      rw [hbud, hc1]
      show (if tok = tok ∧ cAmt1 > bAmt then (1 : ℚ) / 2 else 1) = 1
      rw [if_neg]
      rintro ⟨-, hgt2⟩
      exact absurd hgt2 (not_lt.mpr hle)
    have hb2 : budgetFactor context c2 = ((1 : ℚ) / 2) := by
      unfold budgetFactor
      rw [hbud, hc2]
      show (if tok = tok ∧ cAmt2 > bAmt then (1 : ℚ) / 2 else 1) = 1 / 2
      rw [if_pos ⟨rfl, hgt⟩]
    have hlt : adjustedScore pd now context c2 < adjustedScore pd now context c1 := by
      rw [adjustedScore_eq_factors, adjustedScore_eq_factors]
      rw [histFactor_of_none pd c1 hl1, histFactor_of_none pd c2 hl2]
      rw [← hscore, ← dlFactor_congr now context c1 c2 htime, hb1, hb2]
      have hsd : 0 < c1.score * 1 * dlFactor now context c1 := by
        rw [mul_one]
        exact mul_pos hpos hd
      nlinarith [hsd]
    constructor
    · rw [selectAgent_pair]
      rw [if_neg (by linarith)]
    · rw [selectAgent_pair]
      rw [if_pos hlt]
  · intro hl1
    refine ⟨histFactor_of_none pd c1 hl1, ?_⟩
    rw [adjustedScore_eq_factors, histFactor_of_none pd c1 hl1, mul_one]

end AgentBlend

namespace AgentBlend

/-- A selection context with a budget of 10 "USD" and no deadline. -/
def ctxB : AgentSelectionContext :=
  { requiredCapabilities := [], requiredNetworks := none, taskId := none,
    stepId := none, priority := none, deadline := none, budget := some (10, "USD") }

/-- A candidate with base score 2 and no estimates. -/
def candW (i : String) : AgentCandidate :=
  { agentId := i, score := 2, matchedCapabilities := [], matchedNetworks := [],
    estimatedCost := none, estimatedTime := none }

/-- A candidate with base score 2 and an estimated cost in "USD". -/
def candCost (i : String) (amt : ℚ) : AgentCandidate :=
  { agentId := i, score := 2, matchedCapabilities := [], matchedNetworks := [],
    estimatedCost := some (amt, "USD"), estimatedTime := none }

/-- Performance data where agent "a1" always succeeded and "a2" always
failed. -/
def pdW : PerformanceData := [("a1", [execRec true]), ("a2", [execRec false])]

/-- C7 amended witness: with positive base score 2, the higher-success-rate
candidate "a1" wins in both input orders; the within-budget candidate "b1"
beats the over-budget "b2" in both orders; and an unknown agent's
historical factor is 1. -/
theorem c7_amended_witness :
    (selectAgent pdW 0 ctxB [candW "a1", candW "a2"] = some "a1" ∧
     selectAgent pdW 0 ctxB [candW "a2", candW "a1"] = some "a1") ∧
    (selectAgent pdW 0 ctxB [candCost "b1" 5, candCost "b2" 20] = some "b1" ∧
     selectAgent pdW 0 ctxB [candCost "b2" 20, candCost "b1" 5] = some "b1") ∧
    histFactor pdW (candCost "b1" 5) = 1 :=
  ⟨(c7_amended pdW 0 ctxB (candW "a1") (candW "a2") rfl (by norm_num [candW]) rfl).1
      [execRec true] [execRec false] rfl rfl rfl (by norm_num [successRateOf, execRec]),
   (c7_amended pdW 0 ctxB (candCost "b1" 5) (candCost "b2" 20) rfl
      (by norm_num [candCost]) rfl).2.1
      10 "USD" 5 20 rfl rfl rfl rfl rfl (by norm_num) (by norm_num),
   ((c7_amended pdW 0 ctxB (candCost "b1" 5) (candCost "b1" 5) rfl
      (by norm_num [candCost]) rfl).2.2 rfl).1⟩

end AgentBlend

namespace AgentBlend

/-! ## C1: correctness of `validateWorkflow`

The proof follows the classic white/grey/black argument for
depth-first-search cycle detection: `visited` is grey or black, `recStack`
is the grey path, and a node is *black* when it is visited and off the
recursion stack.  The invariant states that the grey stack is a dependency
path and that the black region is closed under edges and cycle-free. -/

/-- The step ids of a step list. -/
def stepIdsOf (steps : List WorkflowStep) : List String := steps.map fun s => s.id

/-- A node is black: visited and not on the recursion stack. -/
def blackIn (st : DfsState) (x : String) : Prop :=
  x ∈ st.visited ∧ x ∉ st.recStack

/-- Invariant of the depth-first search state. -/
structure DfsInv (w : Workflow) (st : DfsState) : Prop where
  recSub : ∀ x ∈ st.recStack, x ∈ st.visited
  chain : List.Chain' (fun a b => depEdge w b a) st.recStack
  closed : ∀ b, blackIn st b → ∀ c, depEdge w b c → blackIn st c
  safe : ∀ b, blackIn st b → ¬ Relation.TransGen (depEdge w) b b

/-- The number of step ids not yet visited (the DFS recursion measure). -/
def unvisitedCount (w : Workflow) (st : DfsState) : Nat :=
  ((stepIdsOf w.steps).filter fun i => !(st.visited.contains i)).length

theorem unvisitedCount_le (w : Workflow) {st st2 : DfsState}
    (h : ∀ x ∈ st.visited, x ∈ st2.visited) :
    unvisitedCount w st2 ≤ unvisitedCount w st := by
  unfold unvisitedCount
  apply List.Sublist.length_le
  apply List.monotone_filter_right
  intro a ha
  rw [Bool.not_eq_true', ← Bool.not_eq_true] at ha ⊢
  intro hc
  exact ha (List.elem_iff.mpr (h a (List.elem_iff.mp hc)))

theorem unvisitedCount_lt (w : Workflow) {st st2 : DfsState}
    (h : ∀ x ∈ st.visited, x ∈ st2.visited) {a : String}
    (ha : a ∈ stepIdsOf w.steps) (h1 : a ∉ st.visited) (h2 : a ∈ st2.visited) :
    unvisitedCount w st2 < unvisitedCount w st := by
  unfold unvisitedCount
  have hsub : ((stepIdsOf w.steps).filter fun i => !(st2.visited.contains i)).Sublist
      ((stepIdsOf w.steps).filter fun i => !(st.visited.contains i)) := by
    apply List.monotone_filter_right
    intro x hx
    rw [Bool.not_eq_true', ← Bool.not_eq_true] at hx ⊢
    intro hc
    exact hx (List.elem_iff.mpr (h x (List.elem_iff.mp hc)))
  rcases Nat.lt_or_ge (((stepIdsOf w.steps).filter fun i =>
      !(st2.visited.contains i)).length)
      (((stepIdsOf w.steps).filter fun i => !(st.visited.contains i)).length) with hlt | hge
  · exact hlt
  · exfalso
    have heq := hsub.eq_of_length (Nat.le_antisymm hsub.length_le hge)
    have hmem : a ∈ (stepIdsOf w.steps).filter fun i => !(st.visited.contains i) := by
      rw [List.mem_filter]
      refine ⟨ha, ?_⟩
      rw [Bool.not_eq_true', ← Bool.not_eq_true]
      intro hc
      exact h1 (List.elem_iff.mp hc)
    rw [← heq, List.mem_filter] at hmem
    have := hmem.2
    rw [Bool.not_eq_true', ← Bool.not_eq_true] at this
    exact this (List.elem_iff.mpr h2)

/-- Walking up the grey stack from any member reaches the head along
dependency edges. -/
theorem chain_reflTransGen (w : Workflow) :
    ∀ (l : List String) (d h : String),
      List.Chain' (fun a b => depEdge w b a) l →
      l.head? = some h → d ∈ l →
      Relation.ReflTransGen (depEdge w) d h := by
  intro l
  induction l with
  | nil => intro d h _ _ hd; cases hd
  | cons x t ih =>
    intro d h hch hh hd
    rw [List.head?_cons, Option.some.injEq] at hh
    subst hh
    rcases List.mem_cons.mp hd with rfl | hdt
    · exact Relation.ReflTransGen.refl
    · cases t with
      | nil => cases hdt
      | cons y t2 =>
        rw [List.chain'_cons] at hch
        exact Relation.ReflTransGen.tail (ih d y hch.2 rfl hdt) hch.1

/-- Hitting a grey node `d` from the grey head closes a dependency cycle. -/
theorem cycle_of_stack_hit (w : Workflow) (st : DfsState) (parent d : String)
    (hch : List.Chain' (fun a b => depEdge w b a) st.recStack)
    (hhead : st.recStack.head? = some parent)
    (hd : d ∈ st.recStack) (hedge : depEdge w parent d) : hasCycle w :=
  ⟨d, Relation.TransGen.tail' (chain_reflTransGen w st.recStack d parent hch hhead hd) hedge⟩

/-- The black region is closed under reachability. -/
theorem black_of_rtg (w : Workflow) (st : DfsState)
    (hclosed : ∀ b, blackIn st b → ∀ c, depEdge w b c → blackIn st c)
    {x y : String} (hx : blackIn st x)
    (h : Relation.ReflTransGen (depEdge w) x y) : blackIn st y := by
  induction h with
  | refl => exact hx
  | tail _ hedge ih => exact hclosed _ ih _ hedge

/-- A grey node all of whose edge targets are black cannot lie on a cycle. -/
theorem no_cycle_through (w : Workflow) (st2 : DfsState) (stepId : String)
    (hclosed : ∀ b, blackIn st2 b → ∀ c, depEdge w b c → blackIn st2 c)
    (hdeps : ∀ c, depEdge w stepId c → blackIn st2 c)
    (hsid : stepId ∈ st2.recStack) :
    ¬ Relation.TransGen (depEdge w) stepId stepId := by
  intro hcyc
  rcases Relation.TransGen.head'_iff.mp hcyc with ⟨c, hedge, hrtg⟩
  exact (black_of_rtg w st2 hclosed (hdeps _ hedge) hrtg).2 hsid

/-- When no step matches, the node has no outgoing dependency edges. -/
theorem depEdge_of_find?_none (w : Workflow) (stepId : String)
    (h : w.steps.find? (fun s => s.id = stepId) = none) :
    ∀ c, ¬ depEdge w stepId c := by
  intro c hc
  obtain ⟨step, hmem, hid, -⟩ := hc
  rw [List.find?_eq_none] at h
  exact h step hmem (by simp [hid])

/-- With unique ids, the found step carries exactly the node's edges. -/
theorem depEdge_of_find?_some (w : Workflow)
    (hnd : (stepIdsOf w.steps).Nodup) (stepId : String) (step : WorkflowStep)
    (h : w.steps.find? (fun s => s.id = stepId) = some step) :
    step ∈ w.steps ∧ step.id = stepId ∧
      ∀ c, depEdge w stepId c ↔ c ∈ step.dependsOn := by
  have hmem := List.mem_of_find?_eq_some h
  have hid : step.id = stepId := by
    have := List.find?_some h
    rwa [decide_eq_true_eq] at this
  refine ⟨hmem, hid, fun c => ⟨?_, ?_⟩⟩
  · rintro ⟨step2, hmem2, hid2, hdep⟩
    have : step2 = step :=
      List.inj_on_of_nodup_map hnd hmem2 hmem (by rw [hid, hid2])
    exact this ▸ hdep
  · intro hc
    exact ⟨step, hmem, hid, hc⟩

end AgentBlend

namespace AgentBlend

/-- Unfolding of `isCyclicAux` at positive fuel on an unvisited node. -/
theorem isCyclicAux_succ_unvisited (steps : List WorkflowStep) (fuel : Nat)
    (stepId : String) (st : DfsState) (h : st.visited.contains stepId = false) :
    isCyclicAux steps (fuel + 1) stepId st =
      (match steps.find? (fun s => s.id = stepId) with
        | some step =>
          let body := depLoop (isCyclicAux steps fuel) step.dependsOn
            { visited := stepId :: st.visited, recStack := stepId :: st.recStack }
          if body.1 then (true, body.2)
          else (false, { body.2 with recStack := body.2.recStack.erase stepId })
        | none =>
          (false, { visited := stepId :: st.visited, recStack := st.recStack })) := by
  rw [isCyclicAux]
  rw [if_neg (by rw [h]; exact Bool.false_ne_true)]
  cases hfind : steps.find? (fun s => s.id = stepId) with
  | none => simp [hfind, List.erase_cons_head]
  | some step => simp [hfind]

end AgentBlend

namespace AgentBlend

theorem blackIn_push_iff (st : DfsState) (stepId : String) (hnv : stepId ∉ st.visited)
    (x : String) :
    blackIn { visited := stepId :: st.visited, recStack := stepId :: st.recStack } x ↔
      blackIn st x := by
  unfold blackIn
  simp only [List.mem_cons, not_or]
  constructor
  · rintro ⟨hv, hneq, hr⟩
    rcases hv with rfl | hv
    · exact absurd rfl hneq
    · exact ⟨hv, hr⟩
  · rintro ⟨hv, hr⟩
    refine ⟨Or.inr hv, ?_, hr⟩
    rintro rfl
    exact hnv hv

theorem DfsInv.push (w : Workflow) (st : DfsState) (stepId : String)
    (hinv : DfsInv w st) (hnv : stepId ∉ st.visited)
    (hhead : ∀ h, st.recStack.head? = some h → depEdge w h stepId) :
    DfsInv w { visited := stepId :: st.visited, recStack := stepId :: st.recStack } := by
  constructor
  · intro x hx
    rcases List.mem_cons.mp hx with rfl | hx2
    · exact List.mem_cons_self _ _
    · exact List.mem_cons_of_mem _ (hinv.recSub x hx2)
  · show List.Chain' _ (stepId :: st.recStack)
    cases hrec : st.recStack with
    | nil => simp
    | cons hd t =>
      rw [List.chain'_cons]
      refine ⟨hhead hd (by rw [hrec]; rfl), ?_⟩
      rw [← hrec]
      exact hinv.chain
  · intro b hb c hc
    rw [blackIn_push_iff st stepId hnv] at hb ⊢
    exact hinv.closed b hb c hc
  · intro b hb
    rw [blackIn_push_iff st stepId hnv] at hb
    exact hinv.safe b hb

/-- Correctness of one `isCyclic` call: a `true` result exhibits a real
dependency cycle, while a `false` result restores the recursion stack,
extends `visited` with the node (now black), and preserves the invariant. -/
theorem isCyclicAux_spec (w : Workflow)
    (hnd : (stepIdsOf w.steps).Nodup)
    (hcl : ∀ step ∈ w.steps, ∀ d ∈ step.dependsOn, d ∈ stepIdsOf w.steps) :
    ∀ (fuel : Nat) (stepId : String) (st : DfsState) (b : Bool) (stR : DfsState),
      isCyclicAux w.steps fuel stepId st = (b, stR) →
      DfsInv w st →
      stepId ∉ st.visited →
      stepId ∈ stepIdsOf w.steps →
      (∀ h, st.recStack.head? = some h → depEdge w h stepId) →
      unvisitedCount w st + 1 ≤ fuel →
      (b = true → hasCycle w) ∧
      (b = false →
        DfsInv w stR ∧ stR.recStack = st.recStack ∧
        (∀ x ∈ st.visited, x ∈ stR.visited) ∧ stepId ∈ stR.visited) := by
  intro fuel
  induction fuel with
  | zero =>
    intro stepId st b stR heq hinv hnv hid hhead hcount
    omega
  | succ fuel ih =>
    intro stepId st b stR heq hinv hnv hid hhead hcount
    have hcont : st.visited.contains stepId = false := by
      cases hc2 : st.visited.contains stepId
      · rfl
      · exact absurd (List.elem_iff.mp hc2) hnv
    rw [isCyclicAux_succ_unvisited w.steps fuel stepId st hcont] at heq
    have hsidnr : stepId ∉ st.recStack := fun hmem => hnv (hinv.recSub stepId hmem)
    have hinv1 : DfsInv w
        { visited := stepId :: st.visited, recStack := stepId :: st.recStack } :=
      DfsInv.push w st stepId hinv hnv hhead
    have hcount1 : unvisitedCount w
        { visited := stepId :: st.visited, recStack := stepId :: st.recStack } + 1 ≤ fuel := by
      have hlt := @unvisitedCount_lt w st
        { visited := stepId :: st.visited, recStack := stepId :: st.recStack }
        (fun x hx => List.mem_cons_of_mem _ hx) stepId hid hnv (List.mem_cons_self _ _)
      omega
    -- the dependency loop specification
    have hdeploop :
        ∀ (deps : List String) (st' : DfsState) (db : Bool) (dst : DfsState),
          depLoop (isCyclicAux w.steps fuel) deps st' = (db, dst) →
          DfsInv w st' →
          st'.recStack = stepId :: st.recStack →
          (∀ x ∈ st.visited, x ∈ st'.visited) →
          stepId ∈ st'.visited →
          (∀ d ∈ deps, depEdge w stepId d) →
          (∀ d ∈ deps, d ∈ stepIdsOf w.steps) →
          unvisitedCount w st' + 1 ≤ fuel →
          (db = true → hasCycle w) ∧
          (db = false →
            DfsInv w dst ∧ dst.recStack = st'.recStack ∧
            (∀ x ∈ st'.visited, x ∈ dst.visited) ∧
            (∀ d ∈ deps, d ∈ dst.visited ∧ d ∉ (stepId :: st.recStack)) ∧
            unvisitedCount w dst + 1 ≤ fuel) := by
      intro deps
      induction deps with
      | nil =>
        intro st' db dst heq2 hinv' hrec' hvis' hsid' hdeps' hids' hcount'
        simp only [depLoop] at heq2
        injection heq2 with h1 h2
        subst h1
        subst h2
        refine ⟨fun h => Bool.noConfusion h, fun _ => ?_⟩
        exact ⟨hinv', rfl, fun x hx => hx, fun d hd => absurd hd (List.not_mem_nil d), hcount'⟩
      | cons d rest ihd =>
        intro st' db dst heq2 hinv' hrec' hvis' hsid' hdeps' hids' hcount'
        simp only [depLoop] at heq2
        by_cases hv : st'.visited.contains d = true
        · rw [if_pos hv] at heq2
          by_cases hr : st'.recStack.contains d = true
          · rw [if_pos hr] at heq2
            injection heq2 with h1 h2
            subst h1
            subst h2
            refine ⟨fun _ => ?_, fun h => Bool.noConfusion h⟩
            exact cycle_of_stack_hit w st' stepId d hinv'.chain
              (by rw [hrec']; rfl) (List.elem_iff.mp hr)
              (hdeps' d (List.mem_cons_self _ _))
          · rw [if_neg hr] at heq2
            have hres := ihd st' db dst heq2 hinv' hrec' hvis' hsid'
              (fun x hx => hdeps' x (List.mem_cons_of_mem _ hx))
              (fun x hx => hids' x (List.mem_cons_of_mem _ hx)) hcount'
            refine ⟨hres.1, fun hb => ?_⟩
            obtain ⟨hinvD, hrecD, hmonoD, hdepsD, hcountD⟩ := hres.2 hb
            refine ⟨hinvD, hrecD, hmonoD, ?_, hcountD⟩
            intro x hx
            rcases List.mem_cons.mp hx with rfl | hx2
            · refine ⟨hmonoD x (List.elem_iff.mp hv), ?_⟩
              rw [← hrec']
              intro hmem
              exact hr (List.elem_iff.mpr hmem)
            · exact hdepsD x hx2
        · rw [if_neg hv] at heq2
          have hnv2 : d ∉ st'.visited := fun hmem => hv (List.elem_iff.mpr hmem)
          cases hres : isCyclicAux w.steps fuel d st' with
          | mk rb rst =>
            simp only [hres] at heq2
            have hspec := ih d st' rb rst hres hinv' hnv2
              (hids' d (List.mem_cons_self _ _))
              (fun h hh => by
                rw [hrec'] at hh
                rw [List.head?_cons, Option.some.injEq] at hh
                subst hh
                exact hdeps' d (List.mem_cons_self _ _))
              hcount'
            cases rb with
            | true =>
              simp only [if_pos] at heq2
              injection heq2 with h1 h2
              subst h1
              subst h2
              exact ⟨fun _ => hspec.1 rfl, fun h => Bool.noConfusion h⟩
            | false =>
              obtain ⟨hinvR, hrecR, hmonoR, hdR⟩ := hspec.2 rfl
              have hcR : rst.recStack.contains d = false := by
                cases hcR2 : rst.recStack.contains d
                · rfl
                · exfalso
                  have := List.elem_iff.mp hcR2
                  rw [hrecR] at this
                  exact hnv2 (hinv'.recSub d this)
              rw [if_neg (by simp), if_neg (by rw [hcR]; exact Bool.false_ne_true)] at heq2
              have hcount2 : unvisitedCount w rst + 1 ≤ fuel := by
                have := unvisitedCount_le w hmonoR
                omega
              have hres2 := ihd rst db dst heq2 hinvR (hrecR.trans hrec')
                (fun x hx => hmonoR x (hvis' x hx)) (hmonoR stepId hsid')
                (fun x hx => hdeps' x (List.mem_cons_of_mem _ hx))
                (fun x hx => hids' x (List.mem_cons_of_mem _ hx)) hcount2
              refine ⟨hres2.1, fun hb => ?_⟩
              obtain ⟨hinvD, hrecD, hmonoD, hdepsD, hcountD⟩ := hres2.2 hb
              refine ⟨hinvD, hrecD.trans hrecR, fun x hx => hmonoD x (hmonoR x hx), ?_, hcountD⟩
              intro x hx
              rcases List.mem_cons.mp hx with rfl | hx2
              · refine ⟨hmonoD x hdR, ?_⟩
                intro hmem
                rcases List.mem_cons.mp hmem with rfl | hmem2
                · exact hnv2 hsid'
                · exact hnv2 (hvis' x (hinv.recSub x hmem2))
              · exact hdepsD x hx2
    -- dispatch on whether a step with this id exists
    cases hfind : w.steps.find? (fun s => s.id = stepId) with
    | none =>
      rw [hfind] at heq
      simp only [] at heq
      injection heq with h1 h2
      subst h1
      subst h2
      have hnoedge := depEdge_of_find?_none w stepId hfind
      have hb3 : ∀ x, blackIn { visited := stepId :: st.visited, recStack := st.recStack } x ↔
          (x = stepId ∨ blackIn st x) := by
        intro x
        unfold blackIn
        simp only [List.mem_cons]
        constructor
        · rintro ⟨rfl | hv, hr⟩
          · exact Or.inl rfl
          · exact Or.inr ⟨hv, hr⟩
        · rintro (rfl | ⟨hv, hr⟩)
          · exact ⟨Or.inl rfl, hsidnr⟩
          · exact ⟨Or.inr hv, hr⟩
      refine ⟨fun h => Bool.noConfusion h, fun _ => ?_⟩
      refine ⟨?_, rfl, fun x hx => List.mem_cons_of_mem _ hx, List.mem_cons_self _ _⟩
      constructor
      · intro x hx
        exact List.mem_cons_of_mem _ (hinv.recSub x hx)
      · exact hinv.chain
      · intro x hx c hc
        rw [hb3] at hx ⊢
        rcases hx with rfl | hx
        · exact absurd hc (hnoedge c)
        · exact Or.inr (hinv.closed x hx c hc)
      · intro x hx
        rw [hb3] at hx
        rcases hx with rfl | hx
        · intro hcyc
          rcases Relation.TransGen.head'_iff.mp hcyc with ⟨c, hedge, -⟩
          exact hnoedge c hedge
        · exact hinv.safe x hx
    | some step =>
      rw [hfind] at heq
      simp only [] at heq
      obtain ⟨hstepmem, hstepid, hiff⟩ := depEdge_of_find?_some w hnd stepId step hfind
      cases hdl : depLoop (isCyclicAux w.steps fuel) step.dependsOn
          { visited := stepId :: st.visited, recStack := stepId :: st.recStack } with
      | mk db dst =>
        simp only [hdl] at heq
        have hdlspec := hdeploop step.dependsOn
          { visited := stepId :: st.visited, recStack := stepId :: st.recStack }
          db dst hdl hinv1 rfl (fun x hx => List.mem_cons_of_mem _ hx)
          (List.mem_cons_self _ _)
          (fun d hd => (hiff d).mpr hd)
          (fun d hd => hcl step hstepmem d hd)
          hcount1
        cases db with
        | true =>
          simp only [if_pos] at heq
          injection heq with h1 h2
          subst h1
          subst h2
          exact ⟨fun _ => hdlspec.1 rfl, fun h => Bool.noConfusion h⟩
        | false =>
          obtain ⟨hinvD, hrecD, hmonoD, hdepsD, -⟩ := hdlspec.2 rfl
          rw [if_neg (by simp)] at heq
          injection heq with h1 h2
          subst h1
          subst h2
          have hrecR : dst.recStack.erase stepId = st.recStack := by
            rw [hrecD, List.erase_cons_head]
          have hb3 : ∀ x, blackIn { dst with recStack := dst.recStack.erase stepId } x ↔
              (x = stepId ∨ blackIn dst x) := by
            intro x
            unfold blackIn
            simp only [hrecR]
            constructor
            · rintro ⟨hvx, hrx⟩
              by_cases hxs : x = stepId
              · exact Or.inl hxs
              · refine Or.inr ⟨hvx, ?_⟩
                rw [hrecD]
                intro hmem
                rcases List.mem_cons.mp hmem with rfl | hmem2
                · exact hxs rfl
                · exact hrx hmem2
            · rintro (rfl | ⟨hvx, hrx⟩)
              · exact ⟨hmonoD x (List.mem_cons_self _ _), hsidnr⟩
              · refine ⟨hvx, ?_⟩
                intro hmem
                exact hrx (by rw [hrecD]; exact List.mem_cons_of_mem _ hmem)
          have hdb : ∀ c, depEdge w stepId c → blackIn dst c := by
            intro c hc
            obtain ⟨hcv, hcr⟩ := hdepsD c ((hiff c).mp hc)
            refine ⟨hcv, ?_⟩
            rw [hrecD]
            exact hcr
          refine ⟨fun h => Bool.noConfusion h, fun _ => ?_⟩
          refine ⟨?_, hrecR, fun x hx => hmonoD x (List.mem_cons_of_mem _ hx),
            hmonoD stepId (List.mem_cons_self _ _)⟩
          constructor
          · intro x hx
            rw [hrecR] at hx
            exact hmonoD x (List.mem_cons_of_mem _ (hinv.recSub x hx))
          · show List.Chain' _ (dst.recStack.erase stepId)
            rw [hrecR]
            exact hinv.chain
          · intro x hx c hc
            rw [hb3] at hx ⊢
            rcases hx with rfl | hx
            · exact Or.inr (hdb c hc)
            · exact Or.inr (hinvD.closed x hx c hc)
          · intro x hx
            rw [hb3] at hx
            rcases hx with rfl | hx
            · exact no_cycle_through w dst x hinvD.closed hdb
                (by rw [hrecD]; exact List.mem_cons_self _ _)
            · exact hinvD.safe x hx

end AgentBlend

namespace AgentBlend

theorem dedup_length_eq_iff (l : List String) :
    l.dedup.length = l.length ↔ l.Nodup := by
  constructor
  · intro h
    rw [← List.dedup_eq_self]
    exact (List.dedup_sublist l).eq_of_length h
  · intro h
    rw [List.dedup_eq_self.mpr h]

/-- Correctness of the top-level `for` loop of `validateWorkflow`. -/
theorem cycleLoop_spec (w : Workflow)
    (hnd : (stepIdsOf w.steps).Nodup)
    (hcl : ∀ step ∈ w.steps, ∀ d ∈ step.dependsOn, d ∈ stepIdsOf w.steps)
    (fuel : Nat) :
    ∀ (rest : List WorkflowStep) (st : DfsState),
      (∀ s ∈ rest, s ∈ w.steps) →
      DfsInv w st → st.recStack = [] →
      unvisitedCount w st + 1 ≤ fuel →
      (cycleLoop w.steps fuel rest st = false → hasCycle w) ∧
      (cycleLoop w.steps fuel rest st = true →
        ∃ st2 : DfsState, DfsInv w st2 ∧ st2.recStack = [] ∧
          (∀ x ∈ st.visited, x ∈ st2.visited) ∧
          (∀ s ∈ rest, s.id ∈ st2.visited)) := by
  intro rest
  induction rest with
  | nil =>
    intro st hmem hinv hrec hcount
    simp only [cycleLoop]
    refine ⟨fun h => Bool.noConfusion h, fun _ => ⟨st, hinv, hrec, fun x hx => hx, ?_⟩⟩
    intro s hs
    exact absurd hs (List.not_mem_nil s)
  | cons step rest ihr =>
    intro st hmem hinv hrec hcount
    simp only [cycleLoop]
    by_cases hv : st.visited.contains step.id = true
    · rw [if_pos hv]
      have hres := ihr st (fun s hs => hmem s (List.mem_cons_of_mem _ hs)) hinv hrec hcount
      refine ⟨hres.1, fun ht => ?_⟩
      obtain ⟨st2, h1, h2, h3, h4⟩ := hres.2 ht
      refine ⟨st2, h1, h2, h3, fun s hs => ?_⟩
      rcases List.mem_cons.mp hs with rfl | hs2
      · exact h3 s.id (List.elem_iff.mp hv)
      · exact h4 s hs2
    · rw [if_neg (by rw [Bool.not_eq_true] at hv ⊢; rw [hv])]
      cases hres : isCyclicAux w.steps fuel step.id st with
      | mk rb rst =>
        simp only [hres]
        have hnv : step.id ∉ st.visited := fun hmem2 => hv (List.elem_iff.mpr hmem2)
        have hspec := isCyclicAux_spec w hnd hcl fuel step.id st rb rst hres hinv hnv
          (List.mem_map.mpr ⟨step, hmem step (List.mem_cons_self _ _), rfl⟩)
          (fun h hh => by rw [hrec] at hh; cases hh)
          hcount
        cases rb with
        | true =>
          simp only [if_pos]
          exact ⟨fun _ => hspec.1 rfl, fun h => Bool.noConfusion h⟩
        | false =>
          obtain ⟨hinvR, hrecR, hmonoR, hsidR⟩ := hspec.2 rfl
          rw [if_neg (by simp)]
          have hcount2 : unvisitedCount w rst + 1 ≤ fuel := by
            have := unvisitedCount_le w hmonoR
            omega
          have hres2 := ihr rst (fun s hs => hmem s (List.mem_cons_of_mem _ hs))
            hinvR (hrecR.trans hrec) hcount2
          refine ⟨hres2.1, fun ht => ?_⟩
          obtain ⟨st2, h1, h2, h3, h4⟩ := hres2.2 ht
          refine ⟨st2, h1, h2, fun x hx => h3 x (hmonoR x hx), fun s hs => ?_⟩
          rcases List.mem_cons.mp hs with rfl | hs2
          · exact h3 s.id hsidR
          · exact h4 s hs2

/-- The `validateWorkflow` returns true exactly when ids are unique, all
dependencies exist, and the dependency graph is acyclic. -/
theorem validate_eq_true_iff (w : Workflow) :
    validateWorkflow w = true ↔
      ((w.steps.map fun s => s.id).Nodup ∧
       (∀ step ∈ w.steps, ∀ d ∈ step.dependsOn, d ∈ w.steps.map fun s => s.id) ∧
       ¬ hasCycle w) := by
  unfold validateWorkflow
  simp only []
  by_cases hnd : (w.steps.map fun s => s.id).Nodup
  · rw [if_neg (fun hne => hne ((dedup_length_eq_iff _).mpr hnd))]
    by_cases hdang : ∀ step ∈ w.steps, ∀ d ∈ step.dependsOn,
        d ∈ w.steps.map fun s => s.id
    · rw [if_neg]
      · have hinv0 : DfsInv w { visited := [], recStack := [] } := by
          constructor
          · intro x hx; exact absurd hx (List.not_mem_nil x)
          · exact List.chain'_nil
          · intro b hb; exact absurd hb.1 (List.not_mem_nil b)
          · intro b hb; exact absurd hb.1 (List.not_mem_nil b)
        have hcount0 : unvisitedCount w { visited := [], recStack := [] } + 1 ≤
            w.steps.length + 1 := by
          have : unvisitedCount w { visited := [], recStack := [] } = w.steps.length := by
            unfold unvisitedCount stepIdsOf
            simp
          omega
        have hspec := cycleLoop_spec w hnd hdang (w.steps.length + 1) w.steps
          { visited := [], recStack := [] } (fun s hs => hs) hinv0 rfl hcount0
        constructor
        · intro ht
          refine ⟨hnd, fun s hs => hdang s hs, fun hcyc => ?_⟩
          obtain ⟨st2, hinv2, hrec2, -, hall2⟩ := hspec.2 ht
          obtain ⟨a, htg⟩ := hcyc
          rcases Relation.TransGen.head'_iff.mp htg with ⟨c, hedge, -⟩
          obtain ⟨step, hsmem, hsid, -⟩ := hedge
          have hav : a ∈ st2.visited := hsid ▸ hall2 step hsmem
          have hblack : blackIn st2 a := ⟨hav, by rw [hrec2]; exact List.not_mem_nil a⟩
          exact hinv2.safe a hblack htg
        · rintro ⟨-, -, hncyc⟩
          cases hres : cycleLoop w.steps (w.steps.length + 1) w.steps
              { visited := [], recStack := [] } with
          | false => exact absurd (hspec.1 hres) hncyc
          | true => rfl
      · intro hany
        rw [List.any_eq_true] at hany
        obtain ⟨step, hsmem, hstep⟩ := hany
        rw [List.any_eq_true] at hstep
        obtain ⟨d, hdmem, hd⟩ := hstep
        rw [decide_eq_true_eq] at hd
        exact hd (List.elem_iff.mpr (hdang step hsmem d hdmem))
    · rw [if_pos]
      · simp only [Bool.false_eq_true, false_iff]
        rintro ⟨-, hcl, -⟩
        exact hdang hcl
      · push_neg at hdang
        obtain ⟨step, hsmem, d, hdmem, hd⟩ := hdang
        rw [List.any_eq_true]
        refine ⟨step, hsmem, ?_⟩
        rw [List.any_eq_true]
        refine ⟨d, hdmem, ?_⟩
        rw [decide_eq_true_eq]
        intro hc
        exact hd (List.elem_iff.mp hc)
  · rw [if_pos (fun heq => hnd ((dedup_length_eq_iff _).mp heq))]
    simp only [Bool.false_eq_true, false_iff]
    rintro ⟨hnd2, -, -⟩
    exact hnd hnd2

/-- C1: `validateWorkflow` (a total function — the embedding shows it
cannot throw) returns false exactly when the workflow has a duplicate step
id, a `dependsOn` entry referencing a non-existent step id, or a cycle in
the dependency graph (self-loops included, as one-step cycles). -/
theorem c1_validateWorkflow (w : Workflow) :
    validateWorkflow w = false ↔
      (hasDuplicateIds w ∨ hasDanglingDep w ∨ hasCycle w) := by
  rw [← Bool.not_eq_true, validate_eq_true_iff]
  unfold hasDuplicateIds hasDanglingDep
  constructor
  · intro h
    by_cases h1 : (w.steps.map fun s => s.id).Nodup
    · by_cases h2 : ∀ step ∈ w.steps, ∀ d ∈ step.dependsOn,
          d ∈ w.steps.map fun s => s.id
      · refine Or.inr (Or.inr ?_)
        by_contra h3
        exact h ⟨h1, h2, h3⟩
      · refine Or.inr (Or.inl ?_)
        push_neg at h2
        exact h2
    · exact Or.inl h1
  · rintro (h | h | h) ⟨hnd, hcl, hnc⟩
    · exact h hnd
    · obtain ⟨s, hs, d, hd, hnin⟩ := h
      exact hnin (hcl s hs d hd)
    · exact hnc h

end AgentBlend

namespace AgentBlend

/-! ## C6: the simulated success loop -/

/-- Mark every step of a batch COMPLETED through `updateStepStatus`. -/
def markCompleted (w : Workflow) (batch : List WorkflowStep) : Workflow :=
  batch.foldl (fun acc s => updateStepStatus acc s.id StepStatus.COMPLETED none none 0) w

/-- The spec's simulated-success loop: repeatedly take the ready steps, mark
them COMPLETED, add their ids to the completed set, until complete (or out
of fuel); returns the final workflow and the batches returned by
`getNextSteps`. -/
def runLoop : Nat → Workflow → List String → Workflow × List (List WorkflowStep)
  | 0, w, _ => (w, [])
  | fuel + 1, w, completed =>
    if isComplete w then (w, [])
    else
      ((runLoop fuel (markCompleted w (getNextSteps w completed))
          (completed ++ (getNextSteps w completed).map fun s => s.id)).1,
        getNextSteps w completed ::
          (runLoop fuel (markCompleted w (getNextSteps w completed))
            (completed ++ (getNextSteps w completed).map fun s => s.id)).2)

/-- The ids of the still-PENDING steps. -/
def pendingIds (w : Workflow) : List String :=
  (w.steps.filter fun s => s.status = StepStatus.PENDING).map fun s => s.id

/-- If every node of a nonempty set has a successor inside the set, the
dependency graph has a cycle (pigeonhole over the finite set). -/
theorem cycle_of_all_successors (w : Workflow) (P : List String) (hne : P ≠ [])
    (hsucc : ∀ p ∈ P, ∃ d, depEdge w p d ∧ d ∈ P) : hasCycle w := by
  have hfin : Finite {x // x ∈ P} := (P.finite_toSet).to_subtype
  have hchoice : ∀ p : {x // x ∈ P}, ∃ d : {x // x ∈ P}, depEdge w p.val d.val := by
    rintro ⟨p, hp⟩
    obtain ⟨d, hd, hdP⟩ := hsucc p hp
    exact ⟨⟨d, hdP⟩, hd⟩
  choose f hf using hchoice
  obtain ⟨p0, hp0⟩ : ∃ p, p ∈ P := by
    cases P with
    | nil => exact absurd rfl hne
    | cons a t => exact ⟨a, List.mem_cons_self _ _⟩
  have hiter : ∀ (n k : ℕ),
      Relation.TransGen (depEdge w) (f^[n] ⟨p0, hp0⟩).val (f^[n + k + 1] ⟨p0, hp0⟩).val := by
    intro n k
    induction k with
    | zero =>
      rw [Nat.add_zero, Function.iterate_succ_apply']
      exact Relation.TransGen.single (hf _)
    | succ k ihk =>
      have : n + (k + 1) + 1 = (n + k + 1) + 1 := by omega
      rw [this, Function.iterate_succ_apply']
      exact Relation.TransGen.tail ihk (hf _)
  obtain ⟨i, j, hne2, heq⟩ := Finite.exists_ne_map_eq_of_infinite
    (fun n : ℕ => f^[n] ⟨p0, hp0⟩)
  rcases Nat.lt_or_ge i j with hij | hij
  · have hcyc := hiter i (j - i - 1)
    rw [show i + (j - i - 1) + 1 = j by omega] at hcyc
    rw [heq] at hcyc
    exact ⟨_, hcyc⟩
  · have hji : j < i := by omega
    have hcyc := hiter j (i - j - 1)
    rw [show j + (i - j - 1) + 1 = i by omega] at hcyc
    rw [← heq] at hcyc
    exact ⟨_, hcyc⟩

end AgentBlend

namespace AgentBlend

theorem loop_progress (w : Workflow) (completed : List String)
    (hnd : (w.steps.map fun s => s.id).Nodup)
    (hcl : ∀ step ∈ w.steps, ∀ d ∈ step.dependsOn, d ∈ w.steps.map fun s => s.id)
    (hnc : ¬ hasCycle w)
    (hstat : ∀ s ∈ w.steps, s.status = StepStatus.PENDING ∨ s.status = StepStatus.COMPLETED)
    (hcomp : ∀ s ∈ w.steps, s.status = StepStatus.COMPLETED ↔ s.id ∈ completed)
    (hpend : ∃ s ∈ w.steps, s.status = StepStatus.PENDING) :
    getNextSteps w completed ≠ [] := by
  intro hempty
  apply hnc
  apply cycle_of_all_successors w (pendingIds w)
  · obtain ⟨s, hs, hp⟩ := hpend
    intro hnil
    have : s.id ∈ pendingIds w := by
      unfold pendingIds
      exact List.mem_map.mpr ⟨s, List.mem_filter.mpr ⟨hs, by simp [hp]⟩, rfl⟩
    rw [hnil] at this
    exact absurd this (List.not_mem_nil _)
  · intro p hp
    unfold pendingIds at hp
    obtain ⟨s, hsf, rfl⟩ := List.mem_map.mp hp
    rw [List.mem_filter, decide_eq_true_eq] at hsf
    obtain ⟨hs, hpstat⟩ := hsf
    have hnready : ¬ (∀ d ∈ s.dependsOn, d ∈ completed) := by
      intro hready
      have : s ∈ getNextSteps w completed := by
        rw [getNextSteps_mem_iff]
        refine ⟨hs, ?_, hready⟩
        rw [hpstat]
        refine ⟨?_, ?_, ?_, ?_⟩ <;> intro hh <;> exact StepStatus.noConfusion hh
      rw [hempty] at this
      exact absurd this (List.not_mem_nil _)
    push_neg at hnready
    obtain ⟨d, hd, hdnc⟩ := hnready
    obtain ⟨t, ht, htid⟩ := List.mem_map.mp (hcl s hs d hd)
    rcases hstat t ht with htp | htc
    · refine ⟨d, ⟨s, hs, rfl, hd⟩, ?_⟩
      unfold pendingIds
      exact List.mem_map.mpr ⟨t, List.mem_filter.mpr ⟨ht, by simp [htp]⟩, htid⟩
    · exfalso
      exact hdnc (htid ▸ (hcomp t ht).mp htc)

theorem updateStepStatus_completed_steps (w : Workflow) (k : String) :
    (updateStepStatus w k StepStatus.COMPLETED none none 0).steps =
      w.steps.map fun s =>
        if s.id = k then { s with status := StepStatus.COMPLETED, endTime := some 0 }
        else s := by
  unfold updateStepStatus
  apply List.map_eq_map_iff.mpr
  intro s _
  by_cases h : s.id = k
  · rw [if_pos h, if_pos h]
    rfl
  · rw [if_neg h, if_neg h]

/-- The effect of marking a set of ids COMPLETED, as a pointwise map. -/
def stepUpdIf (L : List String) (s : WorkflowStep) : WorkflowStep :=
  if s.id ∈ L then { s with status := StepStatus.COMPLETED, endTime := some 0 } else s

theorem stepUpdIf_id (L : List String) (s : WorkflowStep) : (stepUpdIf L s).id = s.id := by
  unfold stepUpdIf
  by_cases h : s.id ∈ L
  · rw [if_pos h]
  · rw [if_neg h]

theorem stepUpdIf_dependsOn (L : List String) (s : WorkflowStep) :
    (stepUpdIf L s).dependsOn = s.dependsOn := by
  unfold stepUpdIf
  by_cases h : s.id ∈ L
  · rw [if_pos h]
  · rw [if_neg h]

theorem stepUpdIf_status (L : List String) (s : WorkflowStep) :
    (stepUpdIf L s).status = if s.id ∈ L then StepStatus.COMPLETED else s.status := by
  unfold stepUpdIf
  by_cases h : s.id ∈ L
  · rw [if_pos h, if_pos h]
  · rw [if_neg h, if_neg h]

theorem stepUpdIf_comp (L : List String) (k : String) (s : WorkflowStep) :
    stepUpdIf L
      (if s.id = k then { s with status := StepStatus.COMPLETED, endTime := some 0 }
       else s) = stepUpdIf (k :: L) s := by
  by_cases h : s.id = k
  · rw [if_pos h]
    unfold stepUpdIf
    by_cases h2 : s.id ∈ L
    · rw [if_pos (show s.id ∈ L from h2), if_pos (List.mem_cons_of_mem _ h2)]
    · rw [if_neg (show ¬ s.id ∈ L from h2), if_pos (h ▸ List.mem_cons_self k L)]
  · rw [if_neg h]
    unfold stepUpdIf
    by_cases h2 : s.id ∈ L
    · rw [if_pos h2, if_pos (List.mem_cons_of_mem _ h2)]
    · rw [if_neg h2, if_neg (by rw [List.mem_cons]; rintro (hk | hk) <;> exact absurd hk (by assumption))]

theorem markCompleted_steps :
    ∀ (batch : List WorkflowStep) (w : Workflow),
      (markCompleted w batch).steps =
        w.steps.map (stepUpdIf (batch.map fun b => b.id)) := by
  intro batch
  induction batch with
  | nil =>
    intro w
    unfold markCompleted stepUpdIf
    simp
  | cons b batch ihb =>
    intro w
    show (markCompleted (updateStepStatus w b.id StepStatus.COMPLETED none none 0) batch).steps = _
    rw [ihb, updateStepStatus_completed_steps, List.map_map]
    apply List.map_eq_map_iff.mpr
    intro s _
    show stepUpdIf _ (if s.id = b.id then _ else s) = _
    rw [stepUpdIf_comp]
    rfl

theorem depEdge_markCompleted (w : Workflow) (batch : List WorkflowStep) (a b : String) :
    depEdge (markCompleted w batch) a b ↔ depEdge w a b := by
  unfold depEdge
  rw [markCompleted_steps]
  constructor
  · rintro ⟨s2, hs2, hid, hdep⟩
    obtain ⟨s, hs, rfl⟩ := List.mem_map.mp hs2
    exact ⟨s, hs, by rw [← stepUpdIf_id (batch.map fun b => b.id) s]; exact hid,
      by rw [← stepUpdIf_dependsOn (batch.map fun b => b.id) s]; exact hdep⟩
  · rintro ⟨s, hs, hid, hdep⟩
    exact ⟨stepUpdIf (batch.map fun b => b.id) s, List.mem_map.mpr ⟨s, hs, rfl⟩,
      by rw [stepUpdIf_id]; exact hid, by rw [stepUpdIf_dependsOn]; exact hdep⟩

end AgentBlend

namespace AgentBlend

/-- With only PENDING/COMPLETED statuses around, `getNextSteps` is the
filter "PENDING and all dependencies completed". -/
theorem getNextSteps_filter_of_binary (w : Workflow) (completed : List String)
    (hstat : ∀ s ∈ w.steps, s.status = StepStatus.PENDING ∨ s.status = StepStatus.COMPLETED) :
    getNextSteps w completed =
      w.steps.filter fun s =>
        decide (s.status = StepStatus.PENDING) &&
          s.dependsOn.all fun d => completed.contains d := by
  unfold getNextSteps
  apply List.filter_congr
  intro s hs
  rcases hstat s hs with hp | hc
  · rw [hp]
    simp
  · rw [hc]
    simp

theorem markCompleted_idsMap (w : Workflow) (batch : List WorkflowStep) :
    (markCompleted w batch).steps.map (fun s => s.id) = w.steps.map fun s => s.id := by
  rw [markCompleted_steps, List.map_map]
  apply List.map_eq_map_iff.mpr
  intro s _
  exact stepUpdIf_id _ s

/-- Membership in a batch's id list, for a PENDING step, is exactly the
readiness condition. -/
theorem mem_batchIds_iff (w : Workflow) (completed : List String)
    (hnd : (w.steps.map fun s => s.id).Nodup)
    (hstat : ∀ s ∈ w.steps, s.status = StepStatus.PENDING ∨ s.status = StepStatus.COMPLETED)
    (s : WorkflowStep) (hs : s ∈ w.steps) (hp : s.status = StepStatus.PENDING) :
    (s.id ∈ (getNextSteps w completed).map fun b => b.id) ↔
      (s.dependsOn.all fun d => completed.contains d) = true := by
  rw [getNextSteps_filter_of_binary w completed hstat]
  constructor
  · intro hmem
    obtain ⟨b, hb, hbid⟩ := List.mem_map.mp hmem
    rw [List.mem_filter] at hb
    have hbs : b = s := List.inj_on_of_nodup_map hnd hb.1 hs hbid
    have := hb.2
    rw [hbs] at this
    exact (Bool.and_eq_true _ _ |>.mp this).2
  · intro hall
    apply List.mem_map.mpr
    refine ⟨s, ?_, rfl⟩
    rw [List.mem_filter]
    refine ⟨hs, ?_⟩
    rw [Bool.and_eq_true]
    exact ⟨by rw [hp]; simp, hall⟩

end AgentBlend

namespace AgentBlend

theorem pendingIds_markCompleted (w : Workflow) (completed : List String)
    (hnd : (w.steps.map fun s => s.id).Nodup)
    (hstat : ∀ s ∈ w.steps, s.status = StepStatus.PENDING ∨ s.status = StepStatus.COMPLETED) :
    pendingIds (markCompleted w (getNextSteps w completed)) =
      (w.steps.filter fun s =>
        decide (s.status = StepStatus.PENDING) &&
          !(s.dependsOn.all fun d => completed.contains d)).map fun s => s.id := by
  unfold pendingIds
  rw [markCompleted_steps]
  rw [List.filter_map]
  rw [List.map_map]
  have hfe : w.steps.filter ((fun s => decide (s.status = StepStatus.PENDING)) ∘
      stepUpdIf ((getNextSteps w completed).map fun b => b.id)) =
      w.steps.filter fun s =>
        decide (s.status = StepStatus.PENDING) &&
          !(s.dependsOn.all fun d => completed.contains d) := by
    apply List.filter_congr
    intro s hs
    show decide ((stepUpdIf _ s).status = StepStatus.PENDING) = _
    rw [stepUpdIf_status]
    by_cases hmem : s.id ∈ (getNextSteps w completed).map fun b => b.id
    · rw [if_pos hmem]
      rcases hstat s hs with hp | hc
      · rw [(mem_batchIds_iff w completed hnd hstat s hs hp).mp hmem]
        simp
      · rw [hc]
        simp
    · rw [if_neg hmem]
      rcases hstat s hs with hp | hc
      · have hallf : (s.dependsOn.all fun d => completed.contains d) = false := by
          cases hall2 : (s.dependsOn.all fun d => completed.contains d)
          · rfl
          · exact absurd ((mem_batchIds_iff w completed hnd hstat s hs hp).mpr hall2) hmem
        rw [hp, hallf]
        simp
      · rw [hc]
        simp
  rw [hfe]
  apply List.map_eq_map_iff.mpr
  intro s _
  exact stepUpdIf_id _ s

theorem batch_perm (w : Workflow) (completed : List String)
    (hnd : (w.steps.map fun s => s.id).Nodup)
    (hstat : ∀ s ∈ w.steps, s.status = StepStatus.PENDING ∨ s.status = StepStatus.COMPLETED) :
    ((((getNextSteps w completed).map fun s => s.id) ++
      pendingIds (markCompleted w (getNextSteps w completed)))).Perm (pendingIds w) := by
  rw [pendingIds_markCompleted w completed hnd hstat]
  rw [getNextSteps_filter_of_binary w completed hstat]
  unfold pendingIds
  rw [← List.map_append]
  apply List.Perm.map
  have h1 : (w.steps.filter fun s =>
      decide (s.status = StepStatus.PENDING) &&
        (s.dependsOn.all fun d => completed.contains d)) =
      (w.steps.filter fun s => decide (s.status = StepStatus.PENDING)).filter
        (fun s => s.dependsOn.all fun d => completed.contains d) := by
    rw [List.filter_filter]
    apply List.filter_congr
    intro s _
    exact Bool.and_comm _ _
  have h2 : (w.steps.filter fun s =>
      decide (s.status = StepStatus.PENDING) &&
        !(s.dependsOn.all fun d => completed.contains d)) =
      (w.steps.filter fun s => decide (s.status = StepStatus.PENDING)).filter
        (fun s => !(s.dependsOn.all fun d => completed.contains d)) := by
    rw [List.filter_filter]
    apply List.filter_congr
    intro s _
    exact Bool.and_comm _ _
  rw [h1, h2]
  exact List.filter_append_perm _ _

end AgentBlend

namespace AgentBlend

/-- Main loop lemma: with unique ids, closed dependencies, no cycle, binary
statuses matching the completed set, and enough fuel, the loop completes
the workflow and the batches cover the pending steps exactly. -/
theorem runLoop_spec :
    ∀ (fuel : Nat) (w : Workflow) (completed : List String),
      (w.steps.map fun s => s.id).Nodup →
      (∀ step ∈ w.steps, ∀ d ∈ step.dependsOn, d ∈ w.steps.map fun s => s.id) →
      ¬ hasCycle w →
      (∀ s ∈ w.steps, s.status = StepStatus.PENDING ∨ s.status = StepStatus.COMPLETED) →
      (∀ s ∈ w.steps, s.status = StepStatus.COMPLETED ↔ s.id ∈ completed) →
      (pendingIds w).length + 1 ≤ fuel →
      isComplete (runLoop fuel w completed).1 = true ∧
      (((runLoop fuel w completed).2.flatten.map fun s => s.id).Perm (pendingIds w)) := by
  intro fuel
  induction fuel with
  | zero =>
    intro w completed _ _ _ _ _ hcount
    omega
  | succ fuel ih =>
    intro w completed hnd hcl hnc hstat hcomp hcount
    rw [runLoop]
    by_cases hdone : isComplete w = true
    · rw [if_pos hdone]
      refine ⟨hdone, ?_⟩
      have hpe : pendingIds w = [] := by
        unfold pendingIds
        rw [List.map_eq_nil_iff, List.filter_eq_nil_iff]
        intro s hs
        rw [decide_eq_true_eq]
        intro hp
        unfold isComplete at hdone
        rw [List.all_eq_true] at hdone
        have hthis := hdone s hs
        rw [decide_eq_true_eq] at hthis
        rcases hthis with h | h | h <;> rw [hp] at h <;> exact StepStatus.noConfusion h
      rw [hpe]
      simp
    · rw [if_neg hdone]
      have hpend : ∃ s ∈ w.steps, s.status = StepStatus.PENDING := by
        unfold isComplete at hdone
        rw [List.all_eq_true] at hdone
        push_neg at hdone
        obtain ⟨s, hs, hns⟩ := hdone
        refine ⟨s, hs, ?_⟩
        rcases hstat s hs with hp | hc
        · exact hp
        · exfalso
          exact hns (by rw [decide_eq_true_eq]; exact Or.inl hc)
      have hBne := loop_progress w completed hnd hcl hnc hstat hcomp hpend
      have hidmapEq := markCompleted_idsMap w (getNextSteps w completed)
      have hnd2 : ((markCompleted w (getNextSteps w completed)).steps.map fun s => s.id).Nodup := by
        rw [hidmapEq]
        exact hnd
      have hcl2 : ∀ step ∈ (markCompleted w (getNextSteps w completed)).steps,
          ∀ d ∈ step.dependsOn,
            d ∈ (markCompleted w (getNextSteps w completed)).steps.map fun s => s.id := by
        intro step2 hmem2 d hd
        rw [hidmapEq]
        rw [markCompleted_steps] at hmem2
        obtain ⟨s, hs, rfl⟩ := List.mem_map.mp hmem2
        rw [stepUpdIf_dependsOn] at hd
        exact hcl s hs d hd
      have hnc2 : ¬ hasCycle (markCompleted w (getNextSteps w completed)) := by
        intro hcyc
        obtain ⟨a, htg⟩ := hcyc
        apply hnc
        refine ⟨a, ?_⟩
        exact Relation.TransGen.mono (fun x y hxy =>
          (depEdge_markCompleted w (getNextSteps w completed) x y).mp hxy) htg
      have hstat2 : ∀ s ∈ (markCompleted w (getNextSteps w completed)).steps,
          s.status = StepStatus.PENDING ∨ s.status = StepStatus.COMPLETED := by
        intro s2 hmem2
        rw [markCompleted_steps] at hmem2
        obtain ⟨s, hs, rfl⟩ := List.mem_map.mp hmem2
        rw [stepUpdIf_status]
        by_cases hmem : s.id ∈ (getNextSteps w completed).map fun b => b.id
        · rw [if_pos hmem]
          exact Or.inr rfl
        · rw [if_neg hmem]
          exact hstat s hs
      have hcomp2 : ∀ s ∈ (markCompleted w (getNextSteps w completed)).steps,
          s.status = StepStatus.COMPLETED ↔
            s.id ∈ completed ++ (getNextSteps w completed).map fun s => s.id := by
        intro s2 hmem2
        rw [markCompleted_steps] at hmem2
        obtain ⟨s, hs, rfl⟩ := List.mem_map.mp hmem2
        rw [stepUpdIf_status, stepUpdIf_id, List.mem_append]
        by_cases hmem : s.id ∈ (getNextSteps w completed).map fun b => b.id
        · rw [if_pos hmem]
          exact iff_of_true rfl (Or.inr hmem)
        · rw [if_neg hmem]
          rw [hcomp s hs]
          constructor
          · exact Or.inl
          · rintro (h | h)
            · exact h
            · exact absurd h hmem
      have hperm := batch_perm w completed hnd hstat
      have hcount2 : (pendingIds (markCompleted w (getNextSteps w completed))).length + 1 ≤ fuel := by
        have hlen := hperm.length_eq
        rw [List.length_append] at hlen
        have hBlen : 1 ≤ ((getNextSteps w completed).map fun s => s.id).length := by
          rw [List.length_map]
          cases hB : getNextSteps w completed with
          | nil => exact absurd hB hBne
          | cons a t => simp
        omega
      have hrec := ih (markCompleted w (getNextSteps w completed))
        (completed ++ (getNextSteps w completed).map fun s => s.id)
        hnd2 hcl2 hnc2 hstat2 hcomp2 hcount2
      refine ⟨hrec.1, ?_⟩
      show ((getNextSteps w completed ::
        (runLoop fuel (markCompleted w (getNextSteps w completed))
          (completed ++ (getNextSteps w completed).map fun s => s.id)).2).flatten.map
            fun s => s.id).Perm (pendingIds w)
      rw [List.flatten_cons, List.map_append]
      exact List.Perm.trans (List.Perm.append_left _ hrec.2) hperm

end AgentBlend

namespace AgentBlend

/-- C6: for every valid workflow with all steps PENDING, the simulated
success loop reaches `isComplete = true` within `steps.length + 1` passes,
and the ids of the steps returned by `getNextSteps` across all iterations
are a permutation of all step ids — with ids unique (guaranteed by
validation), every step is returned exactly once. -/
theorem c6_simulated_loop (w : Workflow)
    (hvalid : validateWorkflow w = true)
    (hpend : ∀ s ∈ w.steps, s.status = StepStatus.PENDING) :
    isComplete (runLoop (w.steps.length + 1) w []).1 = true ∧
    (((runLoop (w.steps.length + 1) w []).2.flatten.map fun s => s.id).Perm
      (w.steps.map fun s => s.id)) := by
  obtain ⟨hnd, hcl, hnc⟩ := (validate_eq_true_iff w).mp hvalid
  have hstat : ∀ s ∈ w.steps, s.status = StepStatus.PENDING ∨ s.status = StepStatus.COMPLETED :=
    fun s hs => Or.inl (hpend s hs)
  have hcomp : ∀ s ∈ w.steps, s.status = StepStatus.COMPLETED ↔ s.id ∈ ([] : List String) := by
    intro s hs
    rw [hpend s hs]
    constructor
    · intro h
      exact StepStatus.noConfusion h
    · intro h
      exact absurd h (List.not_mem_nil _)
  have hpids : pendingIds w = w.steps.map fun s => s.id := by
    unfold pendingIds
    congr 1
    rw [List.filter_eq_self]
    intro s hs
    rw [decide_eq_true_eq]
    exact hpend s hs
  have hcount : (pendingIds w).length + 1 ≤ w.steps.length + 1 := by
    rw [hpids, List.length_map]
  have hmain := runLoop_spec (w.steps.length + 1) w [] hnd hcl hnc hstat hcomp hcount
  rw [hpids] at hmain
  exact hmain

/-- A valid two-step linear workflow, all PENDING. -/
def wLinear : Workflow := { steps := [baseStep "A" [], baseStep "B" ["A"]] }

/-- C6 witness: the loop completes the linear workflow and returns each of
its two steps exactly once. -/
theorem c6_simulated_loop_witness :
    isComplete (runLoop (wLinear.steps.length + 1) wLinear []).1 = true ∧
    (((runLoop (wLinear.steps.length + 1) wLinear []).2.flatten.map fun s => s.id).Perm
      (wLinear.steps.map fun s => s.id)) :=
  c6_simulated_loop wLinear (by decide) (by decide)

end AgentBlend
